import Mathlib

/-!
Verification development for the stealth-banking ingestion service
(`stealth_app/backend/main.py`).

The Python source is shallowly embedded: pure text-classification helpers
become executable Lean functions over `String`/`List Char`; the regular
expressions of the source (all of a simple word/boundary shape) are
implemented directly with Python `re` semantics (word characters are
`[A-Za-z0-9_]`, `\b` is a word/non-word transition, scanning is leftmost
with greedy backtracking); the stateful ingestion pipeline becomes explicit
state passing.  Library functions external to the repository
(`hashlib.md5`, `datetime.strftime`) are modelled as function parameters
of the pipeline.  Strings are modelled at the level of their character
lists (ASCII semantics for lower-casing, as in the source's lexicons).
-/

namespace StealthBanking

/-! ### Characters, word boundaries (Python `re` semantics, ASCII model) -/

/-- Python regex word character `\w` (ASCII model): letters, digits, underscore. -/
def isWordChar (c : Char) : Bool :=
  c.isAlphanum || c == '_'

/-- Whether the first character of a list is a word character (false for `[]`). -/
def wordHead (cs : List Char) : Bool :=
  match cs.head? with
  | some c => isWordChar c
  | none => false

/-- Whether an optional character is a word character (false for `none`,
the start or end of the string). -/
def wordOpt (c : Option Char) : Bool :=
  match c with
  | some c => isWordChar c
  | none => false

/-- Python `\b`: a word boundary between two adjacent positions, i.e. exactly
one of the two surrounding characters is a word character. -/
def isBoundary (prev next : Option Char) : Bool :=
  wordOpt prev != wordOpt next

/-- ASCII model of Python `str.lower()`. -/
def lowerStr (s : String) : String :=
  ⟨s.data.map Char.toLower⟩

/-- Python string slicing `s[:n]` (by characters). -/
def strTake (n : Nat) (s : String) : String :=
  ⟨s.data.take n⟩

/-- Lexicographic comparison of character lists by code point, the order
Python's `str` comparison and `sorted` use. -/
def listLtB : List Char → List Char → Bool
  | _, [] => false
  | [], _ :: _ => true
  | a :: as, b :: bs =>
    if a.toNat < b.toNat then true
    else if b.toNat < a.toNat then false
    else listLtB as bs

/-- Python `x < y` on strings (code-point lexicographic). -/
def pyStrLt (x y : String) : Bool :=
  listLtB x.data y.data

/-! ### Word-list term matching

The sentiment, issue and topic patterns of the source are all of the shape
`\bw1\s+w2...\b` (one or more literal words separated by `\s+`), matched
case-insensitively.  A term is represented as its list of (lower-case)
words. -/

/-- Case-insensitive literal match of `pat` against a prefix of `cs`;
returns the remaining characters on success. -/
def matchLit : List Char → List Char → Option (List Char)
  | [], cs => some cs
  | _ :: _, [] => none
  | p :: ps, c :: cs => if c.toLower == p then matchLit ps cs else none

/-- Match `\s+w` for each remaining word `w` of a term: one or more
whitespace characters, then the literal word (the words start with
non-whitespace characters, so the greedy `\s+` is deterministic). -/
def matchRest : List String → List Char → Option (List Char)
  | [], cs => some cs
  | w :: ws, cs =>
    let n := (cs.takeWhile Char.isWhitespace).length
    if n == 0 then none
    else
      match matchLit w.data (cs.drop n) with
      | some rest => matchRest ws rest
      | none => none

/-- Match a whole term `\bw1\s+w2...\b` at the current position.
`prev` is the character before the position (for the leading `\b`); the
trailing `\b` holds because every term ends in a letter or digit, so the
next character must not be a word character.  Returns the rest. -/
def matchTerm (term : List String) (prev : Option Char) (cs : List Char) :
    Option (List Char) :=
  match term with
  | [] => none
  | w :: ws =>
    if isBoundary prev cs.head? then
      match matchLit w.data cs with
      | some r1 =>
        match matchRest ws r1 with
        | some rest => if wordHead rest then none else some rest
        | none => none
      | none => none
    else none

/-- First alternative of an alternation `t1|t2|...` matching at the current
position (Python `re` tries alternatives left to right). -/
def firstTerm (terms : List (List String)) (prev : Option Char)
    (cs : List Char) : Option (List Char) :=
  match terms with
  | [] => none
  | t :: ts =>
    match matchTerm t prev cs with
    | some rest => some rest
    | none => firstTerm ts prev cs

/-- Python `re.search` on an alternation of terms: does any position carry a
match? -/
def searchTermsAux (terms : List (List String)) :
    Option Char → List Char → Bool
  | _, [] => false
  | prev, c :: cs =>
    (firstTerm terms prev (c :: cs)).isSome || searchTermsAux terms (some c) cs

/-- Python `bool(regex.search(s))` for an alternation of word terms. -/
def searchTerms (terms : List (List String)) (s : String) : Bool :=
  searchTermsAux terms none s.data

/-- Python `len(regex.findall(s))` for an alternation of word terms:
scan left to right; at each position try the alternatives in order; on a
match, count it and resume after the match (matches are non-empty, so the
fuel `length + 1` always suffices). -/
def countTermsAux (terms : List (List String)) :
    Nat → Option Char → List Char → Nat
  | 0, _, _ => 0
  | _ + 1, _, [] => 0
  | fuel + 1, prev, c :: cs =>
    match firstTerm terms prev (c :: cs) with
    | some rest =>
      let consumed := (c :: cs).length - rest.length
      1 + countTermsAux terms fuel ((c :: cs).take consumed).getLast? rest
    | none => countTermsAux terms fuel (some c) cs

/-- Python `len(regex.findall(s))` for an alternation of word terms. -/
def countTerms (terms : List (List String)) (s : String) : Nat :=
  countTermsAux terms (s.data.length + 1) none s.data

/-! ### Issue detection (`ISSUE_TERMS`, `is_issue_like`) -/

/-- The `ISSUE_TERMS` list of the source, in order, as word terms. -/
def ISSUE_TERMS : List (List String) :=
  [["login"], ["log", "in"], ["sign", "in"], ["2fa"], ["mfa"], ["otp"],
   ["biometric"], ["face", "id"], ["touch", "id"],
   ["error"], ["failed"], ["denied"], ["declined"], ["rejected"],
   ["blocked"], ["locked"], ["freeze"], ["fraud"],
   ["deposit"], ["mobile", "deposit"], ["check", "deposit"], ["transfer"],
   ["zelle"], ["wire"], ["bill", "pay"],
   ["chargeback"], ["dispute"], ["virtual", "card"], ["freeze", "card"],
   ["unfreeze"],
   ["crash"], ["crashing"], ["bug"], ["slow"], ["lag"], ["hang"], ["stuck"],
   ["verification"], ["kyc"], ["address", "update"], ["profile"],
   ["password", "reset"]]

/-- `is_issue_like(text)`: does `ISSUE_REGEX` match anywhere? -/
def is_issue_like (text : String) : Bool :=
  searchTerms ISSUE_TERMS text

/-! ### Sentiment analysis (`analyze_sentiment`) -/

/-- The `POSITIVE_TERMS` list of the source. -/
def POSITIVE_TERMS : List (List String) :=
  [["excellent"], ["great"], ["amazing"], ["perfect"], ["love"],
   ["fantastic"], ["wonderful"], ["outstanding"], ["smooth"], ["easy"],
   ["quick"], ["fast"], ["helpful"], ["supportive"], ["responsive"],
   ["professional"], ["reliable"]]

/-- The `NEGATIVE_TERMS` list of the source. -/
def NEGATIVE_TERMS : List (List String) :=
  [["terrible"], ["awful"], ["horrible"], ["worst"], ["hate"],
   ["disgusting"], ["frustrating"], ["annoying"], ["disappointing"],
   ["pathetic"], ["unacceptable"], ["nightmare"], ["disaster"], ["scam"],
   ["fraud"], ["steal"], ["cheat"]]

/-- `analyze_sentiment(text)`: decision chain over the positive / negative
term counts and the issue signal.  Scores are the source's float constants,
modelled exactly as rationals. -/
def analyze_sentiment (text : String) : String × ℚ :=
  let text_lower := lowerStr text
  let pos_count := countTerms POSITIVE_TERMS text_lower
  let neg_count := countTerms NEGATIVE_TERMS text_lower
  let is_issue := searchTerms ISSUE_TERMS text_lower
  if is_issue && decide (0 < neg_count) then ("negative", -(8 : ℚ)/10)
  else if is_issue then ("negative", -(5 : ℚ)/10)
  else if pos_count > neg_count then ("positive", (6 : ℚ)/10)
  else if neg_count > pos_count then ("negative", -(3 : ℚ)/10)
  else ("neutral", 0)

/-! ### Topic classification (`TOPIC_PATTERNS`, `classify_topic`) -/

/-- The `TOPIC_PATTERNS` taxonomy of the source, in declaration order
(Python dicts preserve insertion order). -/
def TOPIC_PATTERNS : List (String × List (List String)) :=
  [("login_auth",
    [["login"], ["sign", "in"], ["2fa"], ["mfa"], ["biometric"],
     ["password"]]),
   ("payments",
    [["transfer"], ["payment"], ["bill", "pay"], ["zelle"], ["wire"],
     ["deposit"]]),
   ("cards",
    [["card"], ["credit", "card"], ["debit", "card"], ["virtual", "card"],
     ["freeze", "card"]]),
   ("mobile_app",
    [["app"], ["mobile"], ["crash"], ["bug"], ["slow"], ["update"]]),
   ("fees",
    [["fee"], ["charge"], ["cost"], ["expensive"], ["overdraft"]]),
   ("customer_service",
    [["support"], ["help"], ["contact"], ["chat"], ["call"], ["phone"]]),
   ("security",
    [["fraud"], ["scam"], ["security"], ["hack"], ["breach"], ["steal"]]),
   ("account_management",
    [["account"], ["profile"], ["settings"], ["close"], ["open"],
     ["verify"]])]

/-- The per-topic score: the total number of matches summed over the
topic's patterns (each pattern is a separate `findall`). -/
def topicScores (text : String) : List (String × Nat) :=
  let text_lower := lowerStr text
  TOPIC_PATTERNS.map
    (fun tp => (tp.1, (tp.2.map (fun pat => countTerms [pat] text_lower)).sum))

/-- Python `max(d, key=d.get)` over an association list: the first entry
attaining the maximal value wins (later entries replace only on a strictly
greater value). -/
def argmaxFirst : List (String × Nat) → String × Nat → String × Nat
  | [], best => best
  | kv :: rest, best => argmaxFirst rest (if kv.2 > best.2 then kv else best)

/-- The maximum of the score values (all values are counts, hence the `0`
base is neutral). -/
def maxScoreVal (scores : List (String × Nat)) : Nat :=
  scores.foldl (fun m kv => max m kv.2) 0

/-- The return step of `classify_topic`:
`if topic_scores and max(topic_scores.values()) > 0` then the first-max
key, else `"general"`. -/
def pickTopic : List (String × Nat) → String
  | [] => "general"
  | s0 :: rest =>
    if maxScoreVal (s0 :: rest) > 0 then (argmaxFirst rest s0).1
    else "general"

/-- `classify_topic(text)`: the topic of maximal total score, first in
declaration order on ties; `"general"` when every score is zero. -/
def classify_topic (text : String) : String :=
  pickTopic (topicScores text)

/-! ### Bank detection (`extract_banks` and helpers) -/

/-- The multi-word `BANK_PHRASES` table (a Python set; only membership is
used, so a list in source order is a faithful model). -/
def BANK_PHRASES : List String :=
  ["ally bank", "bank of america", "wells fargo", "capital one", "td bank",
   "us bank", "fifth third", "bank of the west", "citizens bank", "pnc bank",
   "hsbc bank", "santander bank", "barclays bank", "standard chartered",
   "american express", "bank of scotland", "royal bank of canada",
   "bank of montreal", "state bank of india", "icici bank", "axis bank",
   "union bank", "first republic", "first citizens", "credit suisse",
   "deutsche bank", "jpmorgan chase", "jp morgan", "morgan stanley"]

/-- The `SINGLE_WORD_BANKS` table. -/
def SINGLE_WORD_BANKS : List String :=
  ["chase", "citi", "citibank", "pnc", "hsbc", "barclays", "santander",
   "monzo", "revolut", "nubank", "sofi", "chime", "wise", "ally"]

/-- The `AMBIGUOUS` subset. -/
def AMBIGUOUS : List String := ["ally"]

/-- The context words `_within_window` looks for around an ambiguous brand. -/
def CONTEXT_WORDS : List String :=
  ["bank", "banking", "app", "card", "checking", "savings"]

/-- Interior characters of `WORD_RE = \b[a-z][a-z&.\-']*\b` (IGNORECASE):
letters plus ampersand, dot, hyphen, apostrophe. -/
def innerClass (c : Char) : Bool :=
  c.isAlpha || c == '&' || c == '.' || c == '-' || c == Char.ofNat 39

/-- Backtracking of the trailing `\b` of `WORD_RE`: given the greedy run
reversed, the length of the longest prefix of the run whose end sits on a
word boundary (`0` when none does). Dropping the last character makes it
the following character. -/
def shrinkLen : List Char → Option Char → Nat
  | [], _ => 0
  | h :: t, next =>
    if isBoundary (some h) next then (h :: t).length else shrinkLen t (some h)

/-- Python `WORD_RE.findall` (leftmost, non-overlapping, greedy with
backtracking of the trailing `\b`), each match lower-cased as in `_words`.
Fuel: every step consumes at least one character, so `length + 1` suffices. -/
def findWordsAux : Nat → Option Char → List Char → List (List Char)
  | 0, _, _ => []
  | _ + 1, _, [] => []
  | fuel + 1, prev, c :: cs =>
    if isBoundary prev (some c) && c.isAlpha then
      let tail := cs.takeWhile innerClass
      let rest := cs.drop tail.length
      let run := c :: tail
      let len := shrinkLen run.reverse rest.head?
      if len == 0 then findWordsAux fuel (some c) cs
      else
        (run.take len).map Char.toLower ::
          findWordsAux fuel (run.take len).getLast? (run.drop len ++ rest)
    else findWordsAux fuel (some c) cs

/-- `_words(text)`: the lower-cased `WORD_RE` tokens of a text. -/
def pyWords (s : String) : List String :=
  (findWordsAux (s.data.length + 1) none s.data).map (fun l => ⟨l⟩)

/-- End-of-match condition for a phrase search: the characters after the
match, whose head must not be a word character (every phrase ends in a
letter). -/
def phraseAtPos (pat : List Char) (cs : List Char) : Bool :=
  match matchLit pat cs with
  | some rest => !(wordHead rest)
  | none => false

/-- Python `re.search(rf"\b{re.escape(phrase)}\b", text, re.IGNORECASE)`
(the phrases contain only letters and single spaces, so escaping is the
identity): some position starts a word-bounded, case-insensitive occurrence
of the phrase. -/
def searchPhraseAux (pat : List Char) : Option Char → List Char → Bool
  | _, [] => false
  | prev, c :: cs =>
    (isBoundary prev (some c) && phraseAtPos pat (c :: cs)) ||
      searchPhraseAux pat (some c) cs

/-- `_has_phrase(text, phrase)`. -/
def hasPhrase (text phrase : String) : Bool :=
  searchPhraseAux phrase.data none text.data

/-- `_within_window(tokens, i, ctx, k=3)`: some token in
`tokens[max(0, i-k) : min(len(tokens), i+k+1)]` is a context word
(`Nat` subtraction models the `max(0, ...)`). -/
def withinWindow (tokens : List String) (i : Nat) (ctx : List String)
    (k : Nat) : Bool :=
  ((tokens.drop (i - k)).take (min tokens.length (i + k + 1) - (i - k))).any
    (fun t => ctx.contains t)

/-- The step-2 hits contributed by one single-word brand: whole-token
occurrence; ambiguous brands additionally need a context word within the
±3 window around some occurrence and then prefer the phrase form
`"ally bank"` when that phrase occurs, else the bare `"ally"`. -/
def brandHits (t : String) (tokens : List String) (brand : String) :
    List String :=
  if !(tokens.contains brand) then []
  else if AMBIGUOUS.contains brand then
    if tokens.enum.any
        (fun it => it.2 == brand && withinWindow tokens it.1 CONTEXT_WORDS 3)
    then
      if hasPhrase t "ally bank" then ["ally bank"] else ["ally"]
    else []
  else [brand]

/-- The alias→canonical map `canon_map` (`dict.get(h, h)` semantics). -/
def canonicalize (h : String) : String :=
  if h = "jp morgan" then "jpmorgan chase"
  else if h = "citibank" then "citi"
  else if h = "pnc bank" then "pnc"
  else if h = "hsbc bank" then "hsbc"
  else if h = "barclays bank" then "barclays"
  else if h = "santander bank" then "santander"
  else if h = "us bank" then "us bank"
  else h

/-- The step-4 safety-removal set (non-bank payment brands). -/
def SAFETY_EXCLUSIONS : List String :=
  ["zelle", "venmo", "cash app", "apple pay", "google pay"]

/-- Insertion into a strictly sorted list, skipping an element already
present (so that folding it models Python's `sorted(set)` with the
code-point lexicographic string order). -/
def insertSorted (x : String) : List String → List String
  | [] => [x]
  | y :: ys =>
    if pyStrLt x y then x :: y :: ys
    else if x = y then y :: ys
    else y :: insertSorted x ys

/-- Python `sorted(set(l))`: the strictly increasing enumeration of the
distinct elements of `l`. -/
def sortedDedup (l : List String) : List String :=
  l.foldl (fun acc x => insertSorted x acc) []

/-- The body of `extract_banks` on the already lower-cased text `t`:
phrase hits, single-word hits with the ambiguity guard, canonicalization,
safety removals, sorted set output. -/
def extractBanksCore (t : String) : List String :=
  let phraseHits := BANK_PHRASES.filter (fun ph => hasPhrase t ph)
  let tokens := pyWords t
  let hits := phraseHits ++ SINGLE_WORD_BANKS.flatMap (brandHits t tokens)
  let normalized := hits.map canonicalize
  sortedDedup (normalized.filter (fun x => !(SAFETY_EXCLUSIONS.contains x)))

/-- `extract_banks(text)`. -/
def extract_banks (text : String) : List String :=
  if text = "" then [] else extractBanksCore (lowerStr text)

/-- `mentions_bank(text)`. -/
def mentions_bank (text : String) : Bool :=
  !(extract_banks text).isEmpty

/-! ### PII redaction (`PII_PATTERNS`, `redact`)

Each pattern is implemented as a matcher
`Option Char → List Char → Option (List Char)` taking the previous
character (for the leading `\b`) and the characters from the current
position, returning the characters after the match on success, with the
same backtracking order as Python `re`. -/

/-- Match exactly `n` digits. -/
def matchDigits : Nat → List Char → Option (List Char)
  | 0, cs => some cs
  | _ + 1, [] => none
  | n + 1, c :: cs => if c.isDigit then matchDigits n cs else none

/-- The trailing `\b` of the numeric patterns: every such pattern ends in a
digit, so the boundary holds exactly when the next character is not a word
character (or the string ends). -/
def endBoundary (rest : List Char) : Bool :=
  !(wordHead rest)

/-- One `[- ]?\d{4}` group of the card pattern, in continuation style so
that a failure of the rest of the pattern backtracks from the
separator-present branch into the separator-absent one, as `re` does. -/
def sepD4 (k : List Char → Option (List Char)) (cs : List Char) :
    Option (List Char) :=
  (match cs with
   | c :: rest =>
     if c == '-' || c == ' ' then
       match matchDigits 4 rest with
       | some r => k r
       | none => none
     else none
   | [] => none) <|>
  (match matchDigits 4 cs with
   | some r => k r
   | none => none)

/-- Pattern 1, `\b\d{4}[- ]?\d{4}[- ]?\d{4}[- ]?\d{4}\b` (card-like). -/
def matchCard (prev : Option Char) (cs : List Char) : Option (List Char) :=
  if isBoundary prev cs.head? then
    match matchDigits 4 cs with
    | some r1 =>
      sepD4 (fun r2 =>
        sepD4 (fun r3 =>
          sepD4 (fun r4 => if endBoundary r4 then some r4 else none) r3) r2) r1
    | none => none
  else none

/-- Pattern 2, `\b\d{3}-\d{2}-\d{4}\b` (SSN-like). -/
def matchSSN (prev : Option Char) (cs : List Char) : Option (List Char) :=
  if isBoundary prev cs.head? then
    match matchDigits 3 cs with
    | some r1 =>
      match r1 with
      | c1 :: r2 =>
        if c1 == '-' then
          match matchDigits 2 r2 with
          | some r3 =>
            match r3 with
            | c2 :: r4 =>
              if c2 == '-' then
                match matchDigits 4 r4 with
                | some r5 => if endBoundary r5 then some r5 else none
                | none => none
              else none
            | [] => none
          | none => none
        else none
      | [] => none
    | none => none
  else none

/-- Greedy `\d{lo,hi}\b` from the current position: try the longest
admissible digit count first, shrinking on a failed trailing boundary. -/
def digitSpanFrom (lo : Nat) (cs : List Char) : Nat → Option (List Char)
  | 0 => none
  | k + 1 =>
    if k + 1 < lo then none
    else if endBoundary (cs.drop (k + 1)) then some (cs.drop (k + 1))
    else digitSpanFrom lo cs k

/-- `\d{lo,hi}\b` with greedy backtracking (the digits are consumed from a
single run, so shrinking below the run length always faces another digit
and fails, exactly as in `re`). -/
def matchDigitRun (lo hi : Nat) (cs : List Char) : Option (List Char) :=
  let runLen := (cs.takeWhile Char.isDigit).length
  if runLen < lo then none
  else digitSpanFrom lo cs (min runLen hi)

/-- Pattern 3, `\b\d{9,18}\b` (long digit runs). -/
def matchLongRun (prev : Option Char) (cs : List Char) : Option (List Char) :=
  if isBoundary prev cs.head? then matchDigitRun 9 18 cs else none

/-- The local-part class `[A-Za-z0-9._%+-]` of the email pattern. -/
def localClass (c : Char) : Bool :=
  c.isAlphanum || c == '.' || c == '_' || c == '%' || c == '+' || c == '-'

/-- The domain class `[A-Za-z0-9.-]` of the email pattern. -/
def domainClass (c : Char) : Bool :=
  c.isAlphanum || c == '.' || c == '-'

/-- After `\.`: `[A-Za-z]{2,}\b`. The greedy letter run must be taken
whole (shrinking it faces another letter), so the match succeeds exactly
when the run has length at least 2 and ends on a boundary. -/
def matchTld (cs : List Char) : Option (List Char) :=
  let letters := (cs.takeWhile Char.isAlpha).length
  if letters < 2 then none
  else if endBoundary (cs.drop letters) then some (cs.drop letters) else none

/-- Backtracking over the `\.` position of the email domain: the `+` before
`\.` is greedy, so `re` tries the rightmost dot of the domain run first.
`j` counts the candidate length of the part before the dot, descending. -/
def emailDotSearch (cs : List Char) : Nat → Option (List Char)
  | 0 => none
  | j + 1 =>
    (match cs.drop (j + 1) with
     | c :: rest => if c == '.' then matchTld rest else none
     | [] => none) <|>
    emailDotSearch cs j

/-- Pattern 4, `\b[A-Za-z0-9._%+-]+@[A-Za-z0-9.-]+\.[A-Za-z]{2,}\b`
(emails).  The local part is the maximal local-class run before `@`
(every word character is in the class, so no shorter start can match). -/
def matchEmail (prev : Option Char) (cs : List Char) : Option (List Char) :=
  if isBoundary prev cs.head? then
    let lp := (cs.takeWhile localClass).length
    if lp == 0 then none
    else
      match cs.drop lp with
      | a :: afterAt =>
        if a == '@' then
          let dom := (afterAt.takeWhile domainClass).length
          if dom == 0 then none else emailDotSearch afterAt (dom - 1)
        else none
      | [] => none
  else none

/-- Pattern 5, `\b\+?\d{7,15}\b` (phone-like).  The optional `+` is greedy:
with a leading `+` the digit branch is tried after it; without one both
branches coincide. -/
def matchPhone (prev : Option Char) (cs : List Char) : Option (List Char) :=
  if isBoundary prev cs.head? then
    (match cs with
     | c :: rest => if c == '+' then matchDigitRun 7 15 rest else none
     | [] => none) <|>
    matchDigitRun 7 15 cs
  else none

/-- The fixed placeholder substituted for every match. -/
def PII_PLACEHOLDER : String := "[REDACTED_PII]"

/-- Python `patt.sub("[REDACTED_PII]", s)`: scan left to right; replace
every (leftmost, non-overlapping) match; boundaries are evaluated in the
input of the pass.  Fuel: every step consumes at least one character. -/
def pySubAux (m : Option Char → List Char → Option (List Char)) :
    Nat → Option Char → List Char → List Char
  | 0, _, cs => cs
  | _ + 1, _, [] => []
  | fuel + 1, prev, c :: cs =>
    match m prev (c :: cs) with
    | some rest =>
      let consumed := (c :: cs).length - rest.length
      PII_PLACEHOLDER.data ++
        pySubAux m fuel ((c :: cs).take consumed).getLast? rest
    | none => c :: pySubAux m fuel (some c) cs

/-- One substitution pass over a string. -/
def pySub (m : Option Char → List Char → Option (List Char)) (s : String) :
    String :=
  ⟨pySubAux m (s.data.length + 1) none s.data⟩

/-- The ordered `PII_PATTERNS` list. -/
def PII_PATTERNS : List (Option Char → List Char → Option (List Char)) :=
  [matchCard, matchSSN, matchLongRun, matchEmail, matchPhone]

/-- `redact(text)`: the five substitution passes applied in order, each
scanning the output of the previous one. -/
def redact (text : String) : String :=
  PII_PATTERNS.foldl (fun redacted patt => pySub patt redacted) text

/-! ### Platform hint, quality filter, deduplication -/

/-- The `platform_hint` component of `extract_platform_version`:
the first `\b(iOS|Android)\b` match, returned in its original casing
(the `version_hint` component is discarded by the ingestion pipeline and
is not modelled). -/
def platformHintAux : Option Char → List Char → Option String
  | _, [] => none
  | prev, c :: cs =>
    match matchTerm ["ios"] prev (c :: cs) with
    | some rest => some ⟨(c :: cs).take ((c :: cs).length - rest.length)⟩
    | none =>
      match matchTerm ["android"] prev (c :: cs) with
      | some rest => some ⟨(c :: cs).take ((c :: cs).length - rest.length)⟩
      | none => platformHintAux (some c) cs

/-- `extract_platform_version(text)["platform_hint"]`. -/
def extract_platform_hint (text : String) : Option String :=
  platformHintAux none text.data

/-- `keep_by_quality(score, num_comments, min_score, min_comments)`. -/
def keep_by_quality (score num_comments min_score min_comments : Int) :
    Bool :=
  score ≥ min_score && num_comments ≥ min_comments

/-- The digest input of `generate_post_hash`:
`f"{post_id}_{bank_name}_{text_snippet[:100]}"`. -/
def hashContent (post_id bank_name text_snippet : String) : String :=
  post_id ++ "_" ++ bank_name ++ "_" ++ strTake 100 text_snippet

/-- `generate_post_hash(post_id, bank_name, text_snippet)`, with the
`hashlib.md5(...).hexdigest()` digest modelled as the function parameter
`digest`. -/
def generate_post_hash (digest : String → String)
    (post_id bank_name text_snippet : String) : String :=
  digest (hashContent post_id bank_name text_snippet)

/-- `is_duplicate(post_hash, seen_hashes)`. -/
def is_duplicate (post_hash : String) (seen_hashes : Finset String) : Bool :=
  post_hash ∈ seen_hashes

/-! ### The ingestion pipeline (`reddit_ml_data`)

The fetched posts are the external collaborator: the pipeline is modelled
as a function of the list of posts the (fail-soft, concatenated) subreddit
fetches produced.  `hashlib.md5(...).hexdigest()` is the parameter
`digest : String → String`; `datetime.fromtimestamp(...).strftime(...)` is
the parameter `fmtDate : Int → String`. -/

/-- A fetched submission, with the fields the pipeline reads. -/
structure Post where
  id : String
  title : String
  selftext : String
  score : Int
  num_comments : Int
  created_utc : Int
  permalink : String
deriving DecidableEq, Repr

/-- The combined text `f"{submission.title or ''}\n{submission.selftext or ''}"`. -/
def postText (p : Post) : String :=
  p.title ++ "\n" ++ p.selftext

/-- One row of the ML dataset (an `AnnotatedRecord`), with the exact field
set the pipeline emits. -/
structure MLRow where
  index : Nat
  platform : String
  bank_name : String
  post_text : String
  category : String
  sentiment_label : String
  sentiment_score : ℚ
  date : String
  user_followers : Nat
  likes : Int
  shares : Nat
  replies : Int
  language : String
  source_url : String
  post_id : String
  hash : String
deriving DecidableEq, Repr

/-- Row construction for one (post, bank) pair (the per-post annotations
are pure functions of the combined text, computed once per post in the
source and inlined here). -/
def mkRow (fmtDate : Int → String) (p : Post) (text : String)
    (bank : String) (idx : Nat) (post_hash : String) : MLRow :=
  let hint := extract_platform_hint text
  let sent := analyze_sentiment text
  { index := idx
    platform :=
      match hint with
      | none => "unknown"
      | some s => if s = "" then "unknown" else lowerStr s
    bank_name := bank
    post_text := redact text
    category := classify_topic text
    sentiment_label := sent.1
    sentiment_score := sent.2
    date := fmtDate p.created_utc
    user_followers := 0
    likes := p.score
    shares := 0
    replies := p.num_comments
    language := "en"
    source_url := "https://www.reddit.com" ++ p.permalink
    post_id := p.id
    hash := post_hash }

/-- The mutable state of the scan: the new-records buffer, the set of
hashes added this run, the running seen set, and the next index. -/
structure LoopState where
  new_data : List MLRow
  new_hashes : Finset String
  seen : Finset String
  index : Nat
deriving DecidableEq

/-- The `for bank in banks` loop: skip a seen hash, otherwise append a
row and track the hash in both sets. -/
def processBanks (fmtDate : Int → String) (digest : String → String)
    (p : Post) (text : String) : List String → LoopState → LoopState
  | [], st => st
  | bank :: banks, st =>
    let post_hash := generate_post_hash digest p.id bank text
    if is_duplicate post_hash st.seen then
      processBanks fmtDate digest p text banks st
    else
      processBanks fmtDate digest p text banks
        { new_data := st.new_data ++ [mkRow fmtDate p text bank st.index post_hash]
          new_hashes := insert post_hash st.new_hashes
          seen := insert post_hash st.seen
          index := st.index + 1 }

/-- Per-submission processing: quality filter, bank detection, then the
per-bank fan-out. -/
def processPost (fmtDate : Int → String) (digest : String → String)
    (min_score min_comments : Int) (p : Post) (st : LoopState) : LoopState :=
  if !(keep_by_quality p.score p.num_comments min_score min_comments) then st
  else if extract_banks (postText p) = [] then st
  else processBanks fmtDate digest p (postText p) (extract_banks (postText p)) st

/-- The scan over all fetched posts. -/
def processPosts (fmtDate : Int → String) (digest : String → String)
    (min_score min_comments : Int) : List Post → LoopState → LoopState
  | [], st => st
  | p :: ps, st =>
    processPosts fmtDate digest min_score min_comments ps
      (processPost fmtDate digest min_score min_comments p st)

/-- The JSON result of a pipeline invocation plus the persisted file
contents after the run (`scraped_data.json` and `seen_posts.json`). -/
structure RunResult where
  new_data : List MLRow
  total_new_records : Nat
  total_all_records : Nat
  duplicates_skipped : Nat
  dataFile : List MLRow
  seenFile : Finset String
deriving DecidableEq

/-- `reddit_ml_data`: load prior state (`existing_data` only when
`append`), scan the fetched posts, persist only when there is new data
(the `if new_data:` guard), and report the summary, with
`duplicates_skipped = len(seen_hashes) - len(new_hashes)` computed on the
final mutated seen set.  `store` and `seen0` are the prior contents of the
two files. -/
def runPipeline (fmtDate : Int → String) (digest : String → String)
    (min_score min_comments : Int) (append : Bool) (posts : List Post)
    (store : List MLRow) (seen0 : Finset String) : RunResult :=
  let existing_data := if append then store else []
  let st := processPosts fmtDate digest min_score min_comments posts
    { new_data := [], new_hashes := ∅, seen := seen0,
      index := existing_data.length }
  { new_data := st.new_data
    total_new_records := st.new_data.length
    total_all_records := existing_data.length + st.new_data.length
    duplicates_skipped := st.seen.card - st.new_hashes.card
    dataFile := if st.new_data = [] then store else existing_data ++ st.new_data
    seenFile := if st.new_data = [] then seen0 else st.seen }

/-! ### Persistence as two independent writes (`save_data`,
`save_seen_hashes`)

The source persists with two sequential full-file rewrites with no
rollback.  An I/O failure is modelled by the flags `okData` / `okSeen`: a
failed `save_data` raises before `save_seen_hashes` runs (neither file
updated, run fails); a failed `save_seen_hashes` leaves the already
rewritten data file in place (files out of step, run fails).  The `Bool`
of the result is whether the run completed without raising. -/

structure DiskState where
  dataFile : List MLRow
  seenFile : Finset String
deriving DecidableEq

/-- The persistence step of `reddit_ml_data` (lines guarded by
`if new_data:`), under the two failure flags. -/
def persistNewBatch (okData okSeen : Bool) (disk : DiskState)
    (existing_data new_data : List MLRow) (seen : Finset String) :
    DiskState × Bool :=
  if new_data = [] then (disk, true)
  else if !okData then (disk, false)
  else if !okSeen then ({ disk with dataFile := existing_data ++ new_data }, false)
  else ({ dataFile := existing_data ++ new_data, seenFile := seen }, true)

/-! ### Claim-side measures -/

/-- Modelled from the claim wording of C3: the number of (post, bank)
pairs encountered during a run whose dedup hash is already in the running
seen-hash set at the moment it is tested (the pairs skipped as duplicates
in that run), threading the seen set exactly as the loop does. -/
def skippedInBanks (digest : String → String) (p : Post) (text : String) :
    List String → Finset String → Nat × Finset String
  | [], seen => (0, seen)
  | bank :: banks, seen =>
    let post_hash := generate_post_hash digest p.id bank text
    if post_hash ∈ seen then
      let r := skippedInBanks digest p text banks seen
      (r.1 + 1, r.2)
    else
      skippedInBanks digest p text banks (insert post_hash seen)

/-- The per-run duplicate-skip count over all posts (claim C3's measure). -/
def skippedInRun (digest : String → String) (min_score min_comments : Int) :
    List Post → Finset String → Nat × Finset String
  | [], seen => (0, seen)
  | p :: ps, seen =>
    if !(keep_by_quality p.score p.num_comments min_score min_comments) then
      skippedInRun digest min_score min_comments ps seen
    else
      let text := postText p
      let banks := extract_banks text
      let r := skippedInBanks digest p text banks seen
      let r2 := skippedInRun digest min_score min_comments ps r.2
      (r.1 + r2.1, r2.2)

/-- Claim-side predicate for C4: the string `w` is a member of the third
PII pattern class, a digit run of 9 to 18 digits. -/
def inDigitRunClass (w : String) : Bool :=
  decide (9 ≤ w.data.length) && decide (w.data.length ≤ 18) &&
    w.data.all Char.isDigit

/-- Claim-side predicate for C4: some substring of `s` is a 9-to-18-digit
run. -/
def containsDigitRunSub (s : String) : Bool :=
  (s.data.tails.map List.inits).flatten.any (fun w => inDigitRunClass ⟨w⟩)

/-! ## Helper lemmas: strings and the sorted set output -/

theorem strData_inj {s t : String} (h : s.data = t.data) : s = t := by
  cases s
  cases t
  exact congrArg String.mk h

theorem strData_append (s t : String) : (s ++ t).data = s.data ++ t.data := by
  cases s
  cases t
  rfl

theorem charToNat_inj {a b : Char} (h : a.toNat = b.toNat) : a = b :=
  Char.eq_of_val_eq (UInt32.ext h)

theorem listLtB_irrefl : ∀ as : List Char, listLtB as as = false := by
  intro as
  induction as with
  | nil => rfl
  | cons a as ih => simp [listLtB, ih]

theorem listLtB_conn :
    ∀ as bs : List Char, listLtB as bs = false → listLtB bs as = false →
      as = bs := by
  intro as
  induction as with
  | nil =>
    intro bs h1 _
    cases bs with
    | nil => rfl
    | cons b bs => exact absurd h1 (by simp [listLtB])
  | cons a as ih =>
    intro bs h1 h2
    cases bs with
    | nil => exact absurd h2 (by simp [listLtB])
    | cons b bs =>
      by_cases hab : a.toNat < b.toNat
      · rw [listLtB, if_pos hab] at h1
        exact absurd h1 (by simp)
      · by_cases hba : b.toNat < a.toNat
        · rw [listLtB, if_pos hba] at h2
          exact absurd h2 (by simp)
        · have hch : a = b := charToNat_inj (by omega)
          subst hch
          rw [listLtB, if_neg hab, if_neg hba] at h1 h2
          rw [ih bs h1 h2]

theorem listLtB_trans :
    ∀ as bs cs : List Char, listLtB as bs = true → listLtB bs cs = true →
      listLtB as cs = true := by
  intro as
  induction as with
  | nil =>
    intro bs cs h1 h2
    cases bs with
    | nil => simp [listLtB] at h1
    | cons b bs =>
      cases cs with
      | nil => simp [listLtB] at h2
      | cons c cs => simp [listLtB]
  | cons a as ih =>
    intro bs cs h1 h2
    cases bs with
    | nil => simp [listLtB] at h1
    | cons b bs =>
      cases cs with
      | nil => simp [listLtB] at h2
      | cons c cs =>
        rw [listLtB] at h1 h2 ⊢
        by_cases hab : a.toNat < b.toNat
        · by_cases hbc : b.toNat < c.toNat
          · rw [if_pos (show a.toNat < c.toNat by omega)]
          · by_cases hcb : c.toNat < b.toNat
            · rw [if_neg hbc, if_pos hcb] at h2
              exact absurd h2 (by simp)
            · rw [if_pos (show a.toNat < c.toNat by omega)]
        · by_cases hba : b.toNat < a.toNat
          · rw [if_neg hab, if_pos hba] at h1
            exact absurd h1 (by simp)
          · rw [if_neg hab, if_neg hba] at h1
            by_cases hbc : b.toNat < c.toNat
            · rw [if_pos (show a.toNat < c.toNat by omega)]
            · by_cases hcb : c.toNat < b.toNat
              · rw [if_neg hbc, if_pos hcb] at h2
                exact absurd h2 (by simp)
              · rw [if_neg hbc, if_neg hcb] at h2
                rw [if_neg (show ¬a.toNat < c.toNat by omega),
                  if_neg (show ¬c.toNat < a.toNat by omega)]
                exact ih bs cs h1 h2

/-- Python's `<` on strings as a relation (code-point lexicographic). -/
def pyLt (x y : String) : Prop :=
  pyStrLt x y = true

theorem pyStrLt_irrefl (x : String) : pyStrLt x x = false :=
  listLtB_irrefl x.data

theorem pyLt_trans {x y z : String} (h1 : pyLt x y) (h2 : pyLt y z) :
    pyLt x z :=
  listLtB_trans x.data y.data z.data h1 h2

theorem pyLt_of_not_of_ne {x y : String} (h1 : ¬pyLt x y) (h2 : x ≠ y) :
    pyLt y x := by
  rw [pyLt, Bool.not_eq_true] at h1
  by_contra h3
  rw [pyLt, Bool.not_eq_true] at h3
  exact h2 (strData_inj (listLtB_conn x.data y.data h1 h3))

theorem pyLt_ne {x y : String} (h : pyLt x y) : x ≠ y := by
  intro he
  subst he
  rw [pyLt, pyStrLt_irrefl] at h
  exact absurd h (by simp)

theorem mem_insertSorted {y x : String} {l : List String} :
    y ∈ insertSorted x l ↔ y = x ∨ y ∈ l := by
  induction l with
  | nil => simp [insertSorted]
  | cons z zs ih =>
    by_cases h1 : pyStrLt x z = true
    · simp [insertSorted, h1]
    · rw [Bool.not_eq_true] at h1
      by_cases h2 : x = z
      · subst h2
        simp only [insertSorted, h1, Bool.false_eq_true, if_false, if_pos rfl]
        constructor
        · intro h; exact Or.inr h
        · rintro (rfl | h) <;> simp_all
      · simp only [insertSorted, h1, h2, Bool.false_eq_true, if_false,
          List.mem_cons, ih]
        tauto

theorem insertSorted_sorted {x : String} {l : List String}
    (h : l.Pairwise pyLt) : (insertSorted x l).Pairwise pyLt := by
  induction l with
  | nil => simp [insertSorted]
  | cons z zs ih =>
    rcases List.pairwise_cons.mp h with ⟨hz, hzs⟩
    by_cases h1 : pyStrLt x z = true
    · rw [insertSorted, if_pos h1]
      exact List.pairwise_cons.mpr
        ⟨fun y hy => by
          rcases List.mem_cons.mp hy with rfl | hy
          · exact h1
          · exact pyLt_trans h1 (hz y hy), h⟩
    · rw [Bool.not_eq_true] at h1
      by_cases h2 : x = z
      · rw [insertSorted, h1, if_neg (by simp), if_pos h2]
        exact h
      · have hzx : pyLt z x :=
          pyLt_of_not_of_ne (by rw [pyLt, h1]; simp) h2
        rw [insertSorted, h1, if_neg (by simp), if_neg h2]
        exact List.pairwise_cons.mpr
          ⟨fun y hy => by
            rcases mem_insertSorted.mp hy with rfl | hy
            · exact hzx
            · exact hz y hy, ih hzs⟩

theorem foldl_insertSorted_sorted (l : List String) :
    ∀ acc : List String, acc.Pairwise pyLt →
      (l.foldl (fun acc x => insertSorted x acc) acc).Pairwise pyLt := by
  induction l with
  | nil => intro acc h; simpa using h
  | cons x xs ih =>
    intro acc h
    exact ih (insertSorted x acc) (insertSorted_sorted h)

theorem sortedDedup_sorted (l : List String) :
    (sortedDedup l).Pairwise pyLt :=
  foldl_insertSorted_sorted l [] (List.Pairwise.nil)

theorem sortedDedup_nodup (l : List String) : (sortedDedup l).Nodup :=
  (sortedDedup_sorted l).imp (fun h => pyLt_ne h)

theorem mem_foldl_insertSorted {y : String} (l : List String) :
    ∀ acc : List String,
      (y ∈ l.foldl (fun acc x => insertSorted x acc) acc ↔ y ∈ acc ∨ y ∈ l) := by
  induction l with
  | nil => intro acc; simp
  | cons x xs ih =>
    intro acc
    rw [List.foldl_cons, ih (insertSorted x acc), mem_insertSorted]
    simp only [List.mem_cons]
    tauto

theorem mem_sortedDedup {y : String} {l : List String} :
    y ∈ sortedDedup l ↔ y ∈ l := by
  rw [sortedDedup, mem_foldl_insertSorted l []]
  simp

/-! ## Helper lemmas: `extract_banks` structure -/

theorem extract_banks_sorted (text : String) :
    List.Sorted pyLt (extract_banks text) := by
  rw [extract_banks]
  split
  · exact List.Pairwise.nil
  · exact sortedDedup_sorted _

theorem extract_banks_nodup (text : String) : (extract_banks text).Nodup := by
  rw [extract_banks]
  split
  · exact List.Pairwise.nil
  · exact sortedDedup_nodup _

theorem lowerStr_eq_empty {s : String} (h : lowerStr s = "") : s = "" := by
  have hdata : s.data.map Char.toLower = ([] : List Char) := congrArg String.data h
  have : s.data = [] := List.map_eq_nil_iff.mp hdata
  cases s with
  | mk l =>
    simp only [String.data] at this
    subst this
    rfl

theorem extract_banks_lower_invariant (t1 t2 : String)
    (h : lowerStr t1 = lowerStr t2) : extract_banks t1 = extract_banks t2 := by
  by_cases h1 : t1 = ""
  · subst h1
    have h2 : t2 = "" := lowerStr_eq_empty (by rw [← h]; rfl)
    rw [h2]
  · have h2 : t2 ≠ "" := by
      intro h2
      exact h1 (lowerStr_eq_empty (by rw [h, h2]; rfl))
    rw [extract_banks, extract_banks, if_neg h1, if_neg h2, h]

/-! ## Claim C8 -/

/-- C8: `extract_banks` is case-insensitive and deterministically ordered:
for every text the returned sequence is lexicographically sorted (strictly,
in the code-point order `pyLt` that Python's `sorted` uses) and
duplicate-free; inputs that agree after lower-casing (in particular, any
recapitalization of each other) give identical results; and every
capitalization variant of "Wells Fargo is great" yields exactly
`["wells fargo"]`. -/
theorem extract_banks_sorted_ci :
    (∀ text : String,
      List.Sorted pyLt (extract_banks text) ∧ (extract_banks text).Nodup) ∧
    (∀ t1 t2 : String, lowerStr t1 = lowerStr t2 →
      extract_banks t1 = extract_banks t2) ∧
    (∀ s : String, lowerStr s = lowerStr "Wells Fargo is great" →
      extract_banks s = ["wells fargo"]) := by
  refine ⟨fun text => ⟨extract_banks_sorted text, extract_banks_nodup text⟩,
    extract_banks_lower_invariant, fun s hs => ?_⟩
  rw [extract_banks_lower_invariant s "Wells Fargo is great" hs]
  decide

/-- C8 witness: the theorem applied to a concrete capitalization variant. -/
theorem extract_banks_sorted_ci_witness :
    extract_banks "wELLS fARGO IS GREAT" = ["wells fargo"] :=
  extract_banks_sorted_ci.2.2 "wELLS fARGO IS GREAT" (by decide)

/-! ## Claim C6 -/

/-- The acceptance condition of the ambiguity guard for the brand
`"ally"`: some token occurrence of the brand has a context word within the
±3 token window (the source's
`any(_within_window(tokens, i, {...}) for i, tok in enumerate(tokens) if tok == brand)`). -/
def allyContextAccepted (text : String) : Bool :=
  let tokens := pyWords (lowerStr text)
  tokens.enum.any
    (fun it => it.2 == "ally" && withinWindow tokens it.1 CONTEXT_WORDS 3)

theorem snd_mem_of_mem_enumFrom {α : Type} {a : α} {i : Nat} :
    ∀ {l : List α} {n : Nat}, (i, a) ∈ l.enumFrom n → a ∈ l := by
  intro l
  induction l with
  | nil => intro n h; simp at h
  | cons x xs ih =>
    intro n h
    rcases List.mem_cons.mp h with h | h
    · rw [Prod.mk.injEq] at h
      rw [h.2]
      exact List.mem_cons_self x xs
    · exact List.mem_cons_of_mem x (ih h)

theorem snd_mem_of_mem_enum {α : Type} {a : α} {i : Nat} {l : List α}
    (h : (i, a) ∈ l.enum) : a ∈ l :=
  snd_mem_of_mem_enumFrom h

theorem canonicalize_eq_ally {h : String} (hc : canonicalize h = "ally") :
    h = "ally" := by
  rw [canonicalize] at hc
  split_ifs at hc <;> simp_all

theorem canonicalize_eq_ally_bank {h : String}
    (hc : canonicalize h = "ally bank") : h = "ally bank" := by
  rw [canonicalize] at hc
  split_ifs at hc <;> simp_all

theorem ally_mem_brandHits {t : String} {tokens : List String}
    {brand : String} (h : "ally" ∈ brandHits t tokens brand) :
    (tokens.enum.any
      (fun it => it.2 == "ally" && withinWindow tokens it.1 CONTEXT_WORDS 3))
        = true ∧
    hasPhrase t "ally bank" = false := by
  rw [brandHits] at h
  split_ifs at h with h1 h2 h3 h4
  · simp at h
  · -- ambiguous brand accepted with the phrase present: hit is "ally bank"
    simp at h
  · -- ambiguous brand accepted, no phrase: hit is the bare "ally"
    have hb : brand = "ally" := by
      simpa [AMBIGUOUS] using h2
    subst hb
    exact ⟨h3, by simp [h4]⟩
  · simp at h
  · -- non-ambiguous brand: the hit is the brand itself, so brand = "ally",
    -- contradicting that "ally" is in the ambiguous set
    simp only [List.mem_singleton] at h
    subst h
    simp [AMBIGUOUS] at h2

theorem ally_mem_core {t : String} (h : "ally" ∈ extractBanksCore t) :
    ((pyWords t).enum.any
      (fun it => it.2 == "ally" &&
        withinWindow (pyWords t) it.1 CONTEXT_WORDS 3)) = true ∧
    hasPhrase t "ally bank" = false := by
  simp only [extractBanksCore] at h
  have h2 := List.mem_filter.mp (mem_sortedDedup.mp h)
  rcases List.mem_map.mp h2.1 with ⟨x, hx, hcanon⟩
  have hxa : x = "ally" := canonicalize_eq_ally hcanon
  subst hxa
  rcases List.mem_append.mp hx with hph | hfm
  · exact absurd (List.mem_filter.mp hph).1 (by decide)
  · rcases List.mem_flatMap.mp hfm with ⟨brand, _, hbh⟩
    exact ally_mem_brandHits hbh

theorem ally_bank_single_mem_core {t : String}
    (hacc : ((pyWords t).enum.any
      (fun it => it.2 == "ally" &&
        withinWindow (pyWords t) it.1 CONTEXT_WORDS 3)) = true) :
    (hasPhrase t "ally bank" = false → "ally" ∈ extractBanksCore t) ∧
    (hasPhrase t "ally bank" = true → "ally bank" ∈ extractBanksCore t) := by
  have hcont : (pyWords t).contains "ally" = true := by
    rcases List.any_eq_true.mp hacc with ⟨⟨i, a⟩, hmem, hcond⟩
    simp only [Bool.and_eq_true, beq_iff_eq] at hcond
    obtain ⟨ha, -⟩ := hcond
    subst ha
    exact List.elem_eq_true_of_mem (snd_mem_of_mem_enum hmem)
  constructor
  · intro hph
    simp only [extractBanksCore]
    refine mem_sortedDedup.mpr (List.mem_filter.mpr ⟨List.mem_map.mpr
      ⟨"ally", List.mem_append.mpr (Or.inr (List.mem_flatMap.mpr
        ⟨"ally", by decide, ?_⟩)), by decide⟩, by decide⟩)
    rw [brandHits, hcont]
    simp only [Bool.not_true, Bool.false_eq_true, if_false]
    rw [if_pos (by decide), if_pos hacc, hph]
    simp
  · intro hph
    simp only [extractBanksCore]
    refine mem_sortedDedup.mpr (List.mem_filter.mpr ⟨List.mem_map.mpr
      ⟨"ally bank", List.mem_append.mpr (Or.inr (List.mem_flatMap.mpr
        ⟨"ally", by decide, ?_⟩)), by decide⟩, by decide⟩)
    rw [brandHits, hcont]
    simp only [Bool.not_true, Bool.false_eq_true, if_false]
    rw [if_pos (by decide), if_pos hacc, hph]
    simp

/-- C6: the ambiguity guard for the brand "ally": the bare brand appears
in `extract_banks text` only when some token occurrence of "ally" has a
banking-context word within ±3 tokens and the phrase "ally bank" does not
occur; when the guard accepts, the phrase form "ally bank" is returned if
that phrase occurs in the (lower-cased) text, else the bare "ally"; and
both "It's finally done" and "finally, ally showed up" yield the empty
result. -/
theorem ally_ambiguity_guard :
    (∀ text : String, "ally" ∈ extract_banks text →
      allyContextAccepted text = true ∧
        hasPhrase (lowerStr text) "ally bank" = false) ∧
    (∀ text : String, allyContextAccepted text = true →
      hasPhrase (lowerStr text) "ally bank" = false →
        "ally" ∈ extract_banks text) ∧
    (∀ text : String, allyContextAccepted text = true →
      hasPhrase (lowerStr text) "ally bank" = true →
        "ally bank" ∈ extract_banks text) ∧
    extract_banks "It's finally done" = [] ∧
    extract_banks "finally, ally showed up" = [] := by
  have hne : ∀ text : String, allyContextAccepted text = true → ¬(text = "") := by
    intro text hacc h
    subst h
    exact absurd hacc (by decide)
  refine ⟨fun text h => ?_, fun text hacc hph => ?_, fun text hacc hph => ?_,
    by decide, by decide⟩
  · rw [extract_banks] at h
    split_ifs at h with h0
    · simp at h
    · simpa [allyContextAccepted] using ally_mem_core h
  · rw [extract_banks, if_neg (hne text hacc)]
    exact (ally_bank_single_mem_core (by simpa [allyContextAccepted] using hacc)).1 hph
  · rw [extract_banks, if_neg (hne text hacc)]
    exact (ally_bank_single_mem_core (by simpa [allyContextAccepted] using hacc)).2 hph

/-- C6 witness: the guard accepts "the ally app is fine" (context word
"app" within the window, no "ally bank" phrase), so the bare brand is
returned. -/
theorem ally_ambiguity_guard_witness :
    "ally" ∈ extract_banks "the ally app is fine" :=
  ally_ambiguity_guard.2.1 "the ally app is fine" (by decide) (by decide)

/-! ## Claim C5 -/

/-- C5 counterexample: on "My card was frozen and this is terrible" the
issue alternation does not match ("frozen" is not the term `freeze`), so
the result is `("negative", -0.3)` by decision row 4, not the claimed
`("negative", -0.8)` of row 1. -/
theorem sentiment_frozen_eval0 :
    analyze_sentiment "My card was frozen and this is terrible"
        = ("negative", -(3 : ℚ)/10) := by
  have h1 : searchTerms ISSUE_TERMS
      (lowerStr "My card was frozen and this is terrible") = false := by decide
  have h2 : countTerms POSITIVE_TERMS
      (lowerStr "My card was frozen and this is terrible") = 0 := by decide
  have h3 : countTerms NEGATIVE_TERMS
      (lowerStr "My card was frozen and this is terrible") = 1 := by decide
  simp only [analyze_sentiment, h1, h2, h3]
  norm_num

theorem sentiment_frozen_counterexample :
    analyze_sentiment "My card was frozen and this is terrible"
        = ("negative", -(3 : ℚ)/10) ∧
    analyze_sentiment "My card was frozen and this is terrible"
        ≠ ("negative", -(8 : ℚ)/10) := by
  refine ⟨sentiment_frozen_eval0, ?_⟩
  rw [sentiment_frozen_eval0]
  intro h
  have := congrArg Prod.snd h
  norm_num at this

/-- C5 amended: on "My card was frozen and this is terrible" no issue term
matches (issue = false), the negative count is 1 ("terrible") and the
positive count 0, so `analyze_sentiment` returns `("negative", -0.3)` via
decision row 4 (`neg_count > pos_count` with no issue). -/
theorem sentiment_frozen_eval :
    analyze_sentiment "My card was frozen and this is terrible"
        = ("negative", -(3 : ℚ)/10) ∧
    searchTerms ISSUE_TERMS
        (lowerStr "My card was frozen and this is terrible") = false ∧
    countTerms NEGATIVE_TERMS
        (lowerStr "My card was frozen and this is terrible") = 1 ∧
    countTerms POSITIVE_TERMS
        (lowerStr "My card was frozen and this is terrible") = 0 := by
  refine ⟨sentiment_frozen_eval0, by decide, by decide, by decide⟩

/-! ## Claim C10 -/

/-- C10: for every input, the sentiment score is one of the five constants
−0.8, −0.5, −0.3, 0.0, 0.6, and the label is consistent with the score:
negative exactly when the score is below zero, positive exactly when it is
0.6, neutral exactly when it is 0.0. -/
theorem analyze_sentiment_range (text : String) :
    ((analyze_sentiment text).2 = -(8 : ℚ)/10 ∨
     (analyze_sentiment text).2 = -(5 : ℚ)/10 ∨
     (analyze_sentiment text).2 = -(3 : ℚ)/10 ∨
     (analyze_sentiment text).2 = 0 ∨
     (analyze_sentiment text).2 = (6 : ℚ)/10) ∧
    ((analyze_sentiment text).1 = "negative" ↔ (analyze_sentiment text).2 < 0) ∧
    ((analyze_sentiment text).1 = "positive" ↔
      (analyze_sentiment text).2 = (6 : ℚ)/10) ∧
    ((analyze_sentiment text).1 = "neutral" ↔ (analyze_sentiment text).2 = 0) := by
  rw [analyze_sentiment]
  split_ifs
  · exact ⟨Or.inl rfl, iff_of_true rfl (by norm_num),
      iff_of_false (by decide) (by norm_num),
      iff_of_false (by decide) (by norm_num)⟩
  · exact ⟨Or.inr (Or.inl rfl), iff_of_true rfl (by norm_num),
      iff_of_false (by decide) (by norm_num),
      iff_of_false (by decide) (by norm_num)⟩
  · exact ⟨Or.inr (Or.inr (Or.inr (Or.inr rfl))),
      iff_of_false (by decide) (by norm_num),
      iff_of_true rfl rfl,
      iff_of_false (by decide) (by norm_num)⟩
  · exact ⟨Or.inr (Or.inr (Or.inl rfl)), iff_of_true rfl (by norm_num),
      iff_of_false (by decide) (by norm_num),
      iff_of_false (by decide) (by norm_num)⟩
  · exact ⟨Or.inr (Or.inr (Or.inr (Or.inl rfl))),
      iff_of_false (by decide) (by norm_num),
      iff_of_false (by decide) (by norm_num),
      iff_of_true rfl rfl⟩

/-! ## Claim C7 -/

theorem argmaxFirst_keep {l : List (String × Nat)} {best : String × Nat}
    (h : ∀ kv ∈ l, kv.2 ≤ best.2) : argmaxFirst l best = best := by
  induction l with
  | nil => rfl
  | cons kv rest ih =>
    rw [argmaxFirst]
    have : ¬(kv.2 > best.2) := not_lt.mpr (h kv (List.mem_cons_self kv rest))
    rw [if_neg this]
    exact ih (fun x hx => h x (List.mem_cons_of_mem kv hx))

theorem argmaxFirst_first {v : Nat} :
    ∀ (pre : List (String × Nat)) (post : List (String × Nat))
      (kv best : String × Nat), kv.2 = v → best.2 < v →
      (∀ x ∈ pre, x.2 < v) → (∀ x ∈ post, x.2 ≤ v) →
      argmaxFirst (pre ++ kv :: post) best = kv := by
  intro pre
  induction pre with
  | nil =>
    intro post kv best hv hb _ hpost
    rw [List.nil_append, argmaxFirst, if_pos (by omega)]
    exact argmaxFirst_keep (fun x hx => by rw [hv]; exact hpost x hx)
  | cons p pre ih =>
    intro post kv best hv hb hpre hpost
    rw [List.cons_append, argmaxFirst]
    have hp : p.2 < v := hpre p (List.mem_cons_self p pre)
    split_ifs with hc
    · exact ih post kv p hv hp
        (fun x hx => hpre x (List.mem_cons_of_mem p hx)) hpost
    · exact ih post kv best hv hb
        (fun x hx => hpre x (List.mem_cons_of_mem p hx)) hpost

theorem foldl_max_const {a : Nat} :
    ∀ l : List (String × Nat), (∀ kv ∈ l, kv.2 = 0) →
      l.foldl (fun m kv => max m kv.2) a = a := by
  intro l
  induction l generalizing a with
  | nil => intro _; rfl
  | cons kv rest ih =>
    intro h
    rw [List.foldl_cons, h kv (List.mem_cons_self kv rest)]
    simpa using ih (fun x hx => h x (List.mem_cons_of_mem kv hx))

theorem le_foldl_max {a : Nat} :
    ∀ l : List (String × Nat), a ≤ l.foldl (fun m kv => max m kv.2) a := by
  intro l
  induction l generalizing a with
  | nil => exact le_refl a
  | cons kv rest ih =>
    rw [List.foldl_cons]
    exact le_trans (le_max_left a kv.2) ih

theorem foldl_max_mono {a b : Nat} (h : a ≤ b) :
    ∀ l : List (String × Nat),
      l.foldl (fun m kv => max m kv.2) a ≤ l.foldl (fun m kv => max m kv.2) b := by
  intro l
  induction l generalizing a b with
  | nil => exact h
  | cons kv rest ih =>
    rw [List.foldl_cons, List.foldl_cons]
    exact ih (max_le_max h le_rfl)

theorem mem_le_maxScoreVal {x : String × Nat} :
    ∀ {scores : List (String × Nat)}, x ∈ scores → x.2 ≤ maxScoreVal scores := by
  intro scores
  induction scores with
  | nil => intro h; simp at h
  | cons kv rest ih =>
    intro h
    rcases List.mem_cons.mp h with rfl | h
    · calc x.2 ≤ max 0 x.2 := le_max_right 0 x.2
        _ ≤ _ := le_foldl_max rest
    · calc x.2 ≤ maxScoreVal rest := ih h
        _ ≤ rest.foldl (fun m kv => max m kv.2) (max 0 kv.2) :=
            foldl_max_mono (Nat.zero_le _) rest
        _ = maxScoreVal (kv :: rest) := rfl

theorem pickTopic_all_zero {scores : List (String × Nat)}
    (hz : ∀ kv ∈ scores, kv.2 = 0) : pickTopic scores = "general" := by
  cases scores with
  | nil => rfl
  | cons s0 rest =>
    rw [pickTopic]
    have : maxScoreVal (s0 :: rest) = 0 := foldl_max_const (s0 :: rest) hz
    rw [if_neg (by omega)]

theorem pickTopic_first_max {pre post : List (String × Nat)}
    {kv : String × Nat} (h0 : 0 < kv.2) (hpre : ∀ x ∈ pre, x.2 < kv.2)
    (hpost : ∀ x ∈ post, x.2 ≤ kv.2) :
    pickTopic (pre ++ kv :: post) = kv.1 := by
  have hmax : 0 < maxScoreVal (pre ++ kv :: post) :=
    lt_of_lt_of_le h0 (mem_le_maxScoreVal (by simp))
  cases pre with
  | nil =>
    rw [List.nil_append, pickTopic, if_pos (by simpa using hmax)]
    rw [argmaxFirst_keep hpost]
  | cons p pre =>
    rw [List.cons_append, pickTopic, if_pos (by simpa using hmax)]
    rw [argmaxFirst_first pre post kv p rfl
      (hpre p (List.mem_cons_self p pre))
      (fun x hx => hpre x (List.mem_cons_of_mem p hx)) hpost]

/-- C7: `classify_topic` returns the topic of maximal total match count:
when all scores are zero (in particular for empty or unmatched text) it
returns "general"; when the scores decompose as `pre ++ kv :: post` with
`kv` positive, all earlier scores strictly smaller and all later ones no
larger (`kv` is the first maximum in declaration order), it returns
`kv`'s topic. -/
theorem classify_topic_first_argmax :
    (∀ text : String, (∀ kv ∈ topicScores text, kv.2 = 0) →
      classify_topic text = "general") ∧
    (∀ (text : String) (pre post : List (String × Nat)) (kv : String × Nat),
      topicScores text = pre ++ kv :: post → 0 < kv.2 →
      (∀ x ∈ pre, x.2 < kv.2) → (∀ x ∈ post, x.2 ≤ kv.2) →
      classify_topic text = kv.1) ∧
    classify_topic "just saying hello" = "general" ∧
    classify_topic "" = "general" := by
  refine ⟨fun text hz => ?_, fun text pre post kv hdec h0 hpre hpost => ?_,
    by decide, by decide⟩
  · rw [classify_topic]
    exact pickTopic_all_zero hz
  · rw [classify_topic, hdec]
    exact pickTopic_first_max h0 hpre hpost

/-- C7 witness: on "support fee card" the scores tie at 1 for "cards",
"fees" and "customer_service"; the first of these in declaration order,
"cards", wins. -/
theorem classify_topic_first_argmax_witness :
    classify_topic "support fee card" = "cards" :=
  classify_topic_first_argmax.2.1 "support fee card"
    [("login_auth", 0), ("payments", 0)]
    [("mobile_app", 0), ("fees", 1), ("customer_service", 1),
     ("security", 0), ("account_management", 0)]
    ("cards", 1) (by decide) (by decide) (by decide) (by decide)

/-! ## Claim C4 -/

/-- C4 counterexample: a 20-digit run is matched by none of the five
passes (the card pass needs a boundary after 16 digits, the 9-to-18-digit
pass and the phone pass cannot end inside the run), so `redact` returns it
unchanged — and that output contains a substring from the third pattern
class (a 9-to-18-digit run), contradicting the claim that the output never
contains a substring matching any of the five classes. -/
theorem redact_nineteen_digit_counterexample :
    redact "12345678901234567890" = "12345678901234567890" ∧
    containsDigitRunSub "12345678901234567890" = true := by
  exact ⟨by decide, by decide⟩

/-- C4 amended: the five substitutions are applied in exactly the order
card, SSN, 9-to-18-digit run, email, phone, each pass scanning the current
already-partially-redacted text and replacing every match with the fixed
placeholder; the spec's §8 example is fully redacted, but the output is
not free of all pattern-class substrings: a digit run of 19 or more digits
survives every pass unchanged. -/
theorem redact_ordered_passes :
    (∀ text : String,
      redact text =
        pySub matchPhone (pySub matchEmail (pySub matchLongRun
          (pySub matchSSN (pySub matchCard text))))) ∧
    redact "Card 4111-1111-1111-1111, email a@b.com"
        = "Card [REDACTED_PII], email [REDACTED_PII]" ∧
    redact "12345678901234567890" = "12345678901234567890" := by
  exact ⟨fun text => rfl, by decide, by decide⟩

/-! ## Helper lemmas: the scan loop -/

variable {fd : Int → String} {dg : String → String} {ms mc : Int}

theorem pb_seen_mono (p : Post) (text : String) :
    ∀ (bs : List String) (st : LoopState),
      st.seen ⊆ (processBanks fd dg p text bs st).seen := by
  intro bs
  induction bs with
  | nil => intro st; exact Finset.Subset.refl _
  | cons b bs ih =>
    intro st
    rw [processBanks]
    split
    · exact ih st
    · refine Finset.Subset.trans ?_ (ih _)
      exact Finset.subset_insert _ _

theorem pb_covers (p : Post) (text : String) :
    ∀ (bs : List String) (st : LoopState) (b : String), b ∈ bs →
      generate_post_hash dg p.id b text ∈
        (processBanks fd dg p text bs st).seen := by
  intro bs
  induction bs with
  | nil => intro st b h; simp at h
  | cons b0 bs ih =>
    intro st b hmem
    rw [processBanks]
    rcases List.mem_cons.mp hmem with rfl | hmem
    · split
      · next hdup =>
        have : generate_post_hash dg p.id b text ∈ st.seen := by
          simpa [is_duplicate] using hdup
        exact pb_seen_mono p text bs st this
      · exact pb_seen_mono p text bs _ (Finset.mem_insert_self _ _)
    · split
      · exact ih st b hmem
      · exact ih _ b hmem

theorem pb_frozen (p : Post) (text : String) :
    ∀ (bs : List String) (st : LoopState),
      (∀ b ∈ bs, generate_post_hash dg p.id b text ∈ st.seen) →
      processBanks fd dg p text bs st = st := by
  intro bs
  induction bs with
  | nil => intro st _; rfl
  | cons b bs ih =>
    intro st h
    rw [processBanks]
    have hdup : is_duplicate (generate_post_hash dg p.id b text) st.seen = true := by
      simpa [is_duplicate] using h b (List.mem_cons_self b bs)
    rw [if_pos hdup]
    exact ih st (fun b' hb' => h b' (List.mem_cons_of_mem b hb'))

theorem pb_state_inv (p : Post) (text : String) (seen0 : Finset String) :
    ∀ (bs : List String) (st : LoopState),
      st.seen = seen0 ∪ st.new_hashes →
      (∀ h ∈ st.new_hashes, h ∉ seen0) →
      (processBanks fd dg p text bs st).seen
          = seen0 ∪ (processBanks fd dg p text bs st).new_hashes ∧
      (∀ h ∈ (processBanks fd dg p text bs st).new_hashes, h ∉ seen0) := by
  intro bs
  induction bs with
  | nil => intro st h1 h2; exact ⟨h1, h2⟩
  | cons b bs ih =>
    intro st h1 h2
    rw [processBanks]
    split
    · exact ih st h1 h2
    · next hdup =>
      have hnot : generate_post_hash dg p.id b text ∉ st.seen := by
        simpa [is_duplicate] using hdup
      refine ih _ ?_ ?_
      · show insert _ st.seen = seen0 ∪ insert _ st.new_hashes
        rw [h1, Finset.union_insert]
      · intro h hh
        rcases Finset.mem_insert.mp hh with rfl | hh
        · intro hc
          exact hnot (h1 ▸ Finset.mem_union_left _ hc)
        · exact h2 h hh

theorem pb_nd_len (p : Post) (text : String) :
    ∀ (bs : List String) (st : LoopState),
      st.new_data.length ≤ (processBanks fd dg p text bs st).new_data.length := by
  intro bs
  induction bs with
  | nil => intro st; exact le_refl _
  | cons b bs ih =>
    intro st
    rw [processBanks]
    split
    · exact ih st
    · refine le_trans ?_ (ih _)
      simp

theorem pb_stuck (p : Post) (text : String) :
    ∀ (bs : List String) (st : LoopState),
      (processBanks fd dg p text bs st).new_data = st.new_data →
      processBanks fd dg p text bs st = st := by
  intro bs
  induction bs with
  | nil => intro st _; rfl
  | cons b bs ih =>
    intro st h
    rw [processBanks] at h ⊢
    split at h
    · next hdup => rw [if_pos hdup]; exact ih st h
    · next hdup =>
      exfalso
      have hlen := @pb_nd_len fd dg p text bs
        { new_data := st.new_data ++ [mkRow fd p text b st.index
            (generate_post_hash dg p.id b text)]
          new_hashes := insert (generate_post_hash dg p.id b text) st.new_hashes
          seen := insert (generate_post_hash dg p.id b text) st.seen
          index := st.index + 1 }
      rw [h] at hlen
      simp at hlen

theorem pp_seen_mono :
    ∀ (ps : List Post) (st : LoopState),
      st.seen ⊆ (processPosts fd dg ms mc ps st).seen := by
  intro ps
  induction ps with
  | nil => intro st; exact Finset.Subset.refl _
  | cons q ps ih =>
    intro st
    refine Finset.Subset.trans ?_ (ih _)
    rw [processPost]
    split
    · exact Finset.Subset.refl _
    · split
      · exact Finset.Subset.refl _
      · exact pb_seen_mono q (postText q) _ st

theorem pp_covers :
    ∀ (ps : List Post) (st : LoopState) (p : Post) (b : String), p ∈ ps →
      keep_by_quality p.score p.num_comments ms mc = true →
      b ∈ extract_banks (postText p) →
      generate_post_hash dg p.id b (postText p) ∈
        (processPosts fd dg ms mc ps st).seen := by
  intro ps
  induction ps with
  | nil => intro st p b h; simp at h
  | cons q ps ih =>
    intro st p b hmem hq hb
    rcases List.mem_cons.mp hmem with rfl | hmem
    · rw [processPosts]
      refine pp_seen_mono ps _ ?_
      rw [processPost, hq]
      simp only [Bool.not_true, Bool.false_eq_true, if_false]
      split
      · next hnil => rw [hnil] at hb; simp at hb
      · exact pb_covers p (postText p) _ st b hb
    · exact ih _ p b hmem hq hb

theorem pp_frozen :
    ∀ (ps : List Post) (st : LoopState),
      (∀ p ∈ ps, keep_by_quality p.score p.num_comments ms mc = true →
        ∀ b ∈ extract_banks (postText p),
          generate_post_hash dg p.id b (postText p) ∈ st.seen) →
      processPosts fd dg ms mc ps st = st := by
  intro ps
  induction ps with
  | nil => intro st _; rfl
  | cons q ps ih =>
    intro st h
    have hq : processPost fd dg ms mc q st = st := by
      rw [processPost]
      split
      · rfl
      · next hqual =>
        split
        · rfl
        · refine pb_frozen q (postText q) _ st ?_
          refine h q (List.mem_cons_self q ps) ?_
          simpa using hqual
    rw [processPosts, hq]
    exact ih st (fun p hp => h p (List.mem_cons_of_mem q hp))

theorem pp_state_inv (seen0 : Finset String) :
    ∀ (ps : List Post) (st : LoopState),
      st.seen = seen0 ∪ st.new_hashes →
      (∀ h ∈ st.new_hashes, h ∉ seen0) →
      (processPosts fd dg ms mc ps st).seen
          = seen0 ∪ (processPosts fd dg ms mc ps st).new_hashes ∧
      (∀ h ∈ (processPosts fd dg ms mc ps st).new_hashes, h ∉ seen0) := by
  intro ps
  induction ps with
  | nil => intro st h1 h2; exact ⟨h1, h2⟩
  | cons q ps ih =>
    intro st h1 h2
    rw [processPosts]
    have hstep : (processPost fd dg ms mc q st).seen
        = seen0 ∪ (processPost fd dg ms mc q st).new_hashes ∧
        (∀ h ∈ (processPost fd dg ms mc q st).new_hashes, h ∉ seen0) := by
      rw [processPost]
      split
      · exact ⟨h1, h2⟩
      · split
        · exact ⟨h1, h2⟩
        · exact pb_state_inv q (postText q) seen0 _ st h1 h2
    exact ih _ hstep.1 hstep.2

theorem pp_nd_len :
    ∀ (ps : List Post) (st : LoopState),
      st.new_data.length ≤ (processPosts fd dg ms mc ps st).new_data.length := by
  intro ps
  induction ps with
  | nil => intro st; exact le_refl _
  | cons q ps ih =>
    intro st
    refine le_trans ?_ (ih _)
    rw [processPost]
    split
    · exact le_refl _
    · split
      · exact le_refl _
      · exact pb_nd_len q (postText q) _ st

theorem pb_nd_ext (p : Post) (text : String) :
    ∀ (bs : List String) (st : LoopState),
      ∃ rows, (processBanks fd dg p text bs st).new_data
          = st.new_data ++ rows := by
  intro bs
  induction bs with
  | nil => intro st; exact ⟨[], (List.append_nil _).symm⟩
  | cons b bs ih =>
    intro st
    rw [processBanks]
    split
    · exact ih st
    · obtain ⟨rows, hrows⟩ := ih
        { new_data := st.new_data ++ [mkRow fd p text b st.index
            (generate_post_hash dg p.id b text)]
          new_hashes := insert (generate_post_hash dg p.id b text) st.new_hashes
          seen := insert (generate_post_hash dg p.id b text) st.seen
          index := st.index + 1 }
      refine ⟨mkRow fd p text b st.index
        (generate_post_hash dg p.id b text) :: rows, ?_⟩
      rw [hrows]
      simp

theorem pPost_nd_ext (q : Post) (st : LoopState) :
    ∃ rows, (processPost fd dg ms mc q st).new_data = st.new_data ++ rows := by
  rw [processPost]
  split
  · exact ⟨[], (List.append_nil _).symm⟩
  · split
    · exact ⟨[], (List.append_nil _).symm⟩
    · exact pb_nd_ext q (postText q) _ st

theorem pPost_stuck (q : Post) (st : LoopState)
    (h : (processPost fd dg ms mc q st).new_data = st.new_data) :
    processPost fd dg ms mc q st = st := by
  by_cases h1 : (!keep_by_quality q.score q.num_comments ms mc) = true
  · rw [processPost, if_pos h1]
  · by_cases h2 : extract_banks (postText q) = []
    · rw [processPost, if_neg h1, if_pos h2]
    · rw [processPost, if_neg h1, if_neg h2] at h ⊢
      exact pb_stuck q (postText q) _ st h

theorem pp_nd_ext :
    ∀ (ps : List Post) (st : LoopState),
      ∃ rows, (processPosts fd dg ms mc ps st).new_data
          = st.new_data ++ rows := by
  intro ps
  induction ps with
  | nil => intro st; exact ⟨[], (List.append_nil _).symm⟩
  | cons q ps ih =>
    intro st
    rw [processPosts]
    obtain ⟨rows1, h1⟩ := @pPost_nd_ext fd dg ms mc q st
    obtain ⟨rows2, h2⟩ := ih (processPost fd dg ms mc q st)
    exact ⟨rows1 ++ rows2, by rw [h2, h1, List.append_assoc]⟩

theorem pp_stuck :
    ∀ (ps : List Post) (st : LoopState),
      (processPosts fd dg ms mc ps st).new_data = st.new_data →
      processPosts fd dg ms mc ps st = st := by
  intro ps
  induction ps with
  | nil => intro st _; rfl
  | cons q ps ih =>
    intro st h
    rw [processPosts] at h ⊢
    obtain ⟨rows1, h1⟩ := @pPost_nd_ext fd dg ms mc q st
    obtain ⟨rows2, h2⟩ := @pp_nd_ext fd dg ms mc ps (processPost fd dg ms mc q st)
    rw [h2, h1, List.append_assoc] at h
    have hlen := congrArg List.length h
    rw [List.length_append, List.length_append] at hlen
    have hr1 : rows1 = [] := List.eq_nil_of_length_eq_zero (by omega)
    have hr2 : rows2 = [] := List.eq_nil_of_length_eq_zero (by omega)
    have hstep : processPost fd dg ms mc q st = st :=
      pPost_stuck q st (by rw [h1, hr1, List.append_nil])
    rw [hstep] at h2 ⊢
    exact ih st (by rw [h2, hr2, List.append_nil])

/-- The initial loop state of a run (`new_data = []`, `new_hashes = set()`,
the loaded seen set, `index = len(existing_data)`). -/
def runInit (ap : Bool) (store : List MLRow) (seen0 : Finset String) :
    LoopState :=
  ⟨[], ∅, seen0, (if ap then store else []).length⟩

theorem runPipeline_nd (fd : Int → String) (dg : String → String)
    (ms mc : Int) (ap : Bool) (posts : List Post) (store : List MLRow)
    (seen0 : Finset String) :
    (runPipeline fd dg ms mc ap posts store seen0).new_data
      = (processPosts fd dg ms mc posts (runInit ap store seen0)).new_data :=
  rfl

theorem runPipeline_ds (fd : Int → String) (dg : String → String)
    (ms mc : Int) (ap : Bool) (posts : List Post) (store : List MLRow)
    (seen0 : Finset String) :
    (runPipeline fd dg ms mc ap posts store seen0).duplicates_skipped
      = (processPosts fd dg ms mc posts (runInit ap store seen0)).seen.card
        - (processPosts fd dg ms mc posts (runInit ap store seen0)).new_hashes.card :=
  rfl

theorem runPipeline_dataFile (fd : Int → String) (dg : String → String)
    (ms mc : Int) (ap : Bool) (posts : List Post) (store : List MLRow)
    (seen0 : Finset String) :
    (runPipeline fd dg ms mc ap posts store seen0).dataFile
      = (if (processPosts fd dg ms mc posts (runInit ap store seen0)).new_data = []
         then store
         else (if ap then store else [])
            ++ (processPosts fd dg ms mc posts (runInit ap store seen0)).new_data) :=
  rfl

theorem runPipeline_seenFile (fd : Int → String) (dg : String → String)
    (ms mc : Int) (ap : Bool) (posts : List Post) (store : List MLRow)
    (seen0 : Finset String) :
    (runPipeline fd dg ms mc ap posts store seen0).seenFile
      = (if (processPosts fd dg ms mc posts (runInit ap store seen0)).new_data = []
         then seen0
         else (processPosts fd dg ms mc posts (runInit ap store seen0)).seen) :=
  rfl

theorem seenFile_covers (fd : Int → String) (dg : String → String)
    (ms mc : Int) (ap : Bool) (posts : List Post) (store : List MLRow)
    (seen0 : Finset String) :
    ∀ p ∈ posts, keep_by_quality p.score p.num_comments ms mc = true →
      ∀ b ∈ extract_banks (postText p),
        generate_post_hash dg p.id b (postText p) ∈
          (runPipeline fd dg ms mc ap posts store seen0).seenFile := by
  intro p hp hq b hb
  rw [runPipeline_seenFile]
  split
  · next hnil =>
    have hstuck : processPosts fd dg ms mc posts (runInit ap store seen0)
        = runInit ap store seen0 :=
      pp_stuck posts (runInit ap store seen0) hnil
    have := @pp_covers fd dg ms mc posts (runInit ap store seen0) p b hp hq hb
    rw [hstuck] at this
    exact this
  · exact pp_covers posts (runInit ap store seen0) p b hp hq hb

/-! ## Claim C1 -/

/-- C1: re-running the pipeline with the identical fetched input and the
persisted state produced by the first run is idempotent: the second run
returns no new records, leaves both persisted files unchanged, and reports
`duplicates_skipped` equal to the number of hashes in the seen-hash set
loaded before the (second) run. -/
theorem pipeline_idempotent (fd : Int → String) (dg : String → String)
    (ms mc : Int) (ap : Bool) (posts : List Post) (store : List MLRow)
    (seen0 : Finset String) :
    (runPipeline fd dg ms mc ap posts
      (runPipeline fd dg ms mc ap posts store seen0).dataFile
      (runPipeline fd dg ms mc ap posts store seen0).seenFile).new_data = [] ∧
    (runPipeline fd dg ms mc ap posts
      (runPipeline fd dg ms mc ap posts store seen0).dataFile
      (runPipeline fd dg ms mc ap posts store seen0).seenFile).dataFile
        = (runPipeline fd dg ms mc ap posts store seen0).dataFile ∧
    (runPipeline fd dg ms mc ap posts
      (runPipeline fd dg ms mc ap posts store seen0).dataFile
      (runPipeline fd dg ms mc ap posts store seen0).seenFile).seenFile
        = (runPipeline fd dg ms mc ap posts store seen0).seenFile ∧
    (runPipeline fd dg ms mc ap posts
      (runPipeline fd dg ms mc ap posts store seen0).dataFile
      (runPipeline fd dg ms mc ap posts store seen0).seenFile).duplicates_skipped
        = (runPipeline fd dg ms mc ap posts store seen0).seenFile.card := by
  have hfrozen : processPosts fd dg ms mc posts
      (runInit ap (runPipeline fd dg ms mc ap posts store seen0).dataFile
        (runPipeline fd dg ms mc ap posts store seen0).seenFile)
      = runInit ap (runPipeline fd dg ms mc ap posts store seen0).dataFile
        (runPipeline fd dg ms mc ap posts store seen0).seenFile := by
    refine pp_frozen posts _ ?_
    intro p hp hq b hb
    exact seenFile_covers fd dg ms mc ap posts store seen0 p hp hq b hb
  refine ⟨?_, ?_, ?_, ?_⟩
  · rw [runPipeline_nd, hfrozen]; rfl
  · rw [runPipeline_dataFile fd dg ms mc ap posts
      (runPipeline fd dg ms mc ap posts store seen0).dataFile
      (runPipeline fd dg ms mc ap posts store seen0).seenFile, hfrozen]
    simp [runInit]
  · rw [runPipeline_seenFile fd dg ms mc ap posts
      (runPipeline fd dg ms mc ap posts store seen0).dataFile
      (runPipeline fd dg ms mc ap posts store seen0).seenFile, hfrozen]
    simp [runInit]
  · rw [runPipeline_ds, hfrozen]
    show (runPipeline fd dg ms mc ap posts store seen0).seenFile.card
        - (∅ : Finset String).card = _
    rw [Finset.card_empty, Nat.sub_zero]

/-! ## Claim C3 -/

/-- C3 amended: the reported `duplicates_skipped` equals the cardinality
of the seen-hash set loaded before the run (the hashes added during the
run are disjoint from it, so `len(seen) - len(new_hashes)` collapses to
the prior set's size) — not the number of pairs skipped during the run. -/
theorem duplicates_skipped_eq_prior (fd : Int → String)
    (dg : String → String) (ms mc : Int) (ap : Bool) (posts : List Post)
    (store : List MLRow) (seen0 : Finset String) :
    (runPipeline fd dg ms mc ap posts store seen0).duplicates_skipped
      = seen0.card := by
  rw [runPipeline_ds]
  obtain ⟨hseen, hdisj⟩ := @pp_state_inv fd dg ms mc seen0 posts
    (runInit ap store seen0)
    (by simp [runInit]) (by simp [runInit])
  rw [hseen, Finset.card_union_of_disjoint
    (Finset.disjoint_left.mpr (fun a ha hb => hdisj a hb ha))]
  omega

/-- C3 counterexample: with no fetched posts and one previously seen hash,
zero (post, bank) pairs are encountered (hence zero duplicates skipped in
the run), yet the code reports `duplicates_skipped = 1` — the size of the
prior seen set. -/
theorem duplicates_skipped_counterexample :
    (runPipeline (fun _ => "") (fun s => s) 5 5 true [] []
        (insert "h" ∅)).duplicates_skipped = 1 ∧
    (skippedInRun (fun s => s) 5 5 [] (insert "h" ∅)).1 = 0 ∧
    (runPipeline (fun _ => "") (fun s => s) 5 5 true [] []
        (insert "h" ∅)).duplicates_skipped
      ≠ (skippedInRun (fun s => s) 5 5 [] (insert "h" ∅)).1 := by
  refine ⟨by decide, by decide, by decide⟩

/-! ## Helper lemmas: hash-content injectivity in the bank name -/

theorem hashContent_bank_inj {pid text b1 b2 : String}
    (h : hashContent pid b1 text = hashContent pid b2 text) : b1 = b2 := by
  have hd := congrArg String.data h
  rw [hashContent, hashContent] at hd
  simp only [strData_append] at hd
  exact strData_inj
    (List.append_cancel_left (List.append_cancel_right
      (List.append_cancel_right hd)))

theorem gph_bank_inj {dg : String → String} (hinj : Function.Injective dg)
    {pid text b1 b2 : String}
    (h : generate_post_hash dg pid b1 text = generate_post_hash dg pid b2 text) :
    b1 = b2 :=
  hashContent_bank_inj (hinj h)

/-! ## Claim C2 -/

/-- The (post_id, bank_name) pairs of a stored record list. -/
def pairsOf (l : List MLRow) : List (String × String) :=
  l.map (fun r => (r.post_id, r.bank_name))

theorem pb_fresh_emits {fd : Int → String} {dg : String → String}
    (hinj : Function.Injective dg) (p : Post) (text : String) :
    ∀ (bs : List String) (st : LoopState), bs.Nodup →
      (∀ b ∈ bs, generate_post_hash dg p.id b text ∉ st.seen) →
      ∃ rows : List MLRow,
        (processBanks fd dg p text bs st).new_data = st.new_data ++ rows ∧
        rows.map MLRow.bank_name = bs ∧
        (∀ r ∈ rows, r.post_id = p.id) ∧
        rows.map MLRow.hash
          = bs.map (fun b => generate_post_hash dg p.id b text) := by
  intro bs
  induction bs with
  | nil =>
    intro st _ _
    exact ⟨[], (List.append_nil _).symm, rfl, by simp, rfl⟩
  | cons b bs ih =>
    intro st hnd hfresh
    rw [processBanks]
    have hb : generate_post_hash dg p.id b text ∉ st.seen :=
      hfresh b (List.mem_cons_self b bs)
    rw [if_neg (by simpa [is_duplicate] using hb)]
    obtain ⟨rows, hrows, hbank, hpid, hhash⟩ := ih
      { new_data := st.new_data ++ [mkRow fd p text b st.index
          (generate_post_hash dg p.id b text)]
        new_hashes := insert (generate_post_hash dg p.id b text) st.new_hashes
        seen := insert (generate_post_hash dg p.id b text) st.seen
        index := st.index + 1 }
      (List.nodup_cons.mp hnd).2
      (by
        intro b' hb'
        rw [Finset.mem_insert]
        push_neg
        refine ⟨?_, hfresh b' (List.mem_cons_of_mem b hb')⟩
        intro hcontra
        exact (List.nodup_cons.mp hnd).1
          ((gph_bank_inj hinj hcontra) ▸ hb'))
    refine ⟨mkRow fd p text b st.index
      (generate_post_hash dg p.id b text) :: rows, ?_, ?_, ?_, ?_⟩
    · rw [hrows]; simp
    · simpa [mkRow] using hbank
    · intro r hr
      rcases List.mem_cons.mp hr with rfl | hr
      · rfl
      · exact hpid r hr
    · simpa [mkRow] using hhash

/-- The per-post fan-out of claim C2: a quality-admitted post whose text
mentions the banks `extract_banks (postText p)` (nonempty), with all the
pair hashes fresh, appends exactly one record per detected bank, all
sharing the post's id, with the bank-name sequence equal to the detected
(sorted, duplicate-free) bank list and pairwise distinct hashes. -/
theorem processPost_fanout {fd : Int → String} {dg : String → String}
    (hinj : Function.Injective dg) (ms mc : Int) (p : Post) (st : LoopState)
    (hq : keep_by_quality p.score p.num_comments ms mc = true)
    (hne : extract_banks (postText p) ≠ [])
    (hfresh : ∀ b ∈ extract_banks (postText p),
      generate_post_hash dg p.id b (postText p) ∉ st.seen) :
    ∃ rows : List MLRow,
      (processPost fd dg ms mc p st).new_data = st.new_data ++ rows ∧
      rows.length = (extract_banks (postText p)).length ∧
      (∀ r ∈ rows, r.post_id = p.id) ∧
      rows.map MLRow.bank_name = extract_banks (postText p) ∧
      (rows.map MLRow.bank_name).Nodup ∧
      (rows.map MLRow.hash).Nodup := by
  rw [processPost, hq]
  simp only [Bool.not_true, Bool.false_eq_true, if_false, if_neg hne]
  obtain ⟨rows, hrows, hbank, hpid, hhash⟩ :=
    pb_fresh_emits hinj p (postText p) (extract_banks (postText p)) st
      (extract_banks_nodup (postText p)) hfresh
  refine ⟨rows, hrows, ?_, hpid, hbank, ?_, ?_⟩
  · rw [← hbank, List.length_map]
  · rw [hbank]; exact extract_banks_nodup (postText p)
  · rw [hhash]
    exact (extract_banks_nodup (postText p)).map
      (fun b1 b2 hb => gph_bank_inj hinj hb)

/-- The loop invariant for the at-most-one-record-per-(post_id, bank_name)
property: the prior seen set stays included; every buffered record stems
from some fetched post with a consistent hash that is in the running seen
set; and the pairs of store-plus-buffer are duplicate-free. -/
def pairInv (dg : String → String) (posts : List Post)
    (existing : List MLRow) (seen0 : Finset String) (st : LoopState) : Prop :=
  seen0 ⊆ st.seen ∧
  (∀ r ∈ st.new_data, ∃ p, p ∈ posts ∧ r.post_id = p.id ∧
    r.hash = generate_post_hash dg p.id r.bank_name (postText p) ∧
    r.hash ∈ st.seen) ∧
  (pairsOf (existing ++ st.new_data)).Nodup

theorem pb_pair_inv {fd : Int → String} {dg : String → String}
    {posts : List Post} {existing : List MLRow} {seen0 : Finset String}
    (Htext : ∀ p q, p ∈ posts → q ∈ posts → p.id = q.id →
      postText p = postText q)
    (Hbridge : ∀ r ∈ existing, ∀ p, p ∈ posts → p.id = r.post_id →
      generate_post_hash dg p.id r.bank_name (postText p) ∈ seen0)
    (q : Post) (hq : q ∈ posts) :
    ∀ (bs : List String) (st : LoopState),
      pairInv dg posts existing seen0 st →
      pairInv dg posts existing seen0
        (processBanks fd dg q (postText q) bs st) := by
  intro bs
  induction bs with
  | nil => intro st hinv; exact hinv
  | cons b bs ih =>
    intro st hinv
    rw [processBanks]
    split
    · exact ih st hinv
    · next hdup =>
      have hfresh : generate_post_hash dg q.id b (postText q) ∉ st.seen := by
        simpa [is_duplicate] using hdup
      obtain ⟨hsub, hrec, hpairs⟩ := hinv
      refine ih _ ⟨?_, ?_, ?_⟩
      · exact hsub.trans (Finset.subset_insert _ _)
      · intro r hr
        rcases List.mem_append.mp hr with hr | hr
        · obtain ⟨p, hp, hid, hhash, hmem⟩ := hrec r hr
          exact ⟨p, hp, hid, hhash, Finset.mem_insert_of_mem hmem⟩
        · rw [List.mem_singleton] at hr
          subst hr
          exact ⟨q, hq, rfl, rfl, Finset.mem_insert_self _ _⟩
      · show (pairsOf (existing ++ (st.new_data ++ [_]))).Nodup
        rw [← List.append_assoc, pairsOf, List.map_append]
        rw [pairsOf] at hpairs
        refine List.Nodup.append hpairs (List.nodup_singleton _) ?_
        intro x hx hx2
        rw [List.map_singleton, List.mem_singleton] at hx2
        subst hx2
        rcases List.mem_map.mp hx with ⟨r0, hr0, hpair⟩
        have hid : r0.post_id = q.id := congrArg Prod.fst hpair
        have hbank : r0.bank_name = b := congrArg Prod.snd hpair
        rcases List.mem_append.mp hr0 with hr0 | hr0
        · -- collision with a store record: its pair hash was persisted
          have := Hbridge r0 hr0 q hq hid.symm
          rw [hbank] at this
          exact hfresh (hsub this)
        · -- collision with an earlier buffered record from a same-id post
          obtain ⟨p, hp, hid2, hhash, hmem2⟩ := hrec r0 hr0
          have hpq : p.id = q.id := by rw [← hid2, hid]
          have htext : postText p = postText q := Htext p q hp hq hpq
          rw [hhash, hbank, generate_post_hash, hashContent, hpq, htext]
            at hmem2
          exact hfresh hmem2

theorem pPost_pair_inv {fd : Int → String} {dg : String → String}
    {ms mc : Int} {posts : List Post} {existing : List MLRow}
    {seen0 : Finset String}
    (Htext : ∀ p q, p ∈ posts → q ∈ posts → p.id = q.id →
      postText p = postText q)
    (Hbridge : ∀ r ∈ existing, ∀ p, p ∈ posts → p.id = r.post_id →
      generate_post_hash dg p.id r.bank_name (postText p) ∈ seen0)
    (q : Post) (hq : q ∈ posts) (st : LoopState)
    (hinv : pairInv dg posts existing seen0 st) :
    pairInv dg posts existing seen0 (processPost fd dg ms mc q st) := by
  rw [processPost]
  split
  · exact hinv
  · split
    · exact hinv
    · exact pb_pair_inv Htext Hbridge q hq _ st hinv

theorem pp_pair_inv {fd : Int → String} {dg : String → String}
    {ms mc : Int} {posts : List Post} {existing : List MLRow}
    {seen0 : Finset String}
    (Htext : ∀ p q, p ∈ posts → q ∈ posts → p.id = q.id →
      postText p = postText q)
    (Hbridge : ∀ r ∈ existing, ∀ p, p ∈ posts → p.id = r.post_id →
      generate_post_hash dg p.id r.bank_name (postText p) ∈ seen0) :
    ∀ (ps : List Post) (st : LoopState), (∀ p ∈ ps, p ∈ posts) →
      pairInv dg posts existing seen0 st →
      pairInv dg posts existing seen0 (processPosts fd dg ms mc ps st) := by
  intro ps
  induction ps with
  | nil => intro st _ hinv; exact hinv
  | cons q ps ih =>
    intro st hsub hinv
    rw [processPosts]
    exact ih _ (fun p hp => hsub p (List.mem_cons_of_mem q hp))
      (pPost_pair_inv Htext Hbridge q (hsub q (List.mem_cons_self q ps))
        st hinv)

/-- C2: fan-out correctness and pair uniqueness.  First part: for every
quality-admitted post whose text mentions the (nonempty) bank list
`extract_banks (postText p)`, none of whose pair hashes are seen, the scan
appends exactly one record per detected bank, all sharing the post's id,
with pairwise distinct bank names and (for an injective digest) pairwise
distinct hashes.  Second part: a run whose fetched posts have text
determined by their id, starting from a store with duplicate-free
(post_id, bank_name) pairs whose pair hashes are all in the prior seen
set, persists a store that still has at most one record per
(post_id, bank_name) pair. -/
theorem fanout_and_pair_uniqueness :
    (∀ (fd : Int → String) (dg : String → String),
      Function.Injective dg →
      ∀ (ms mc : Int) (p : Post) (st : LoopState),
        keep_by_quality p.score p.num_comments ms mc = true →
        extract_banks (postText p) ≠ [] →
        (∀ b ∈ extract_banks (postText p),
          generate_post_hash dg p.id b (postText p) ∉ st.seen) →
        ∃ rows : List MLRow,
          (processPost fd dg ms mc p st).new_data = st.new_data ++ rows ∧
          rows.length = (extract_banks (postText p)).length ∧
          (∀ r ∈ rows, r.post_id = p.id) ∧
          rows.map MLRow.bank_name = extract_banks (postText p) ∧
          (rows.map MLRow.bank_name).Nodup ∧
          (rows.map MLRow.hash).Nodup) ∧
    (∀ (fd : Int → String) (dg : String → String) (ms mc : Int) (ap : Bool)
      (posts : List Post) (store : List MLRow) (seen0 : Finset String),
      (∀ p q, p ∈ posts → q ∈ posts → p.id = q.id →
        postText p = postText q) →
      (pairsOf store).Nodup →
      (∀ r ∈ store, ∀ p, p ∈ posts → p.id = r.post_id →
        generate_post_hash dg p.id r.bank_name (postText p) ∈ seen0) →
      (pairsOf (runPipeline fd dg ms mc ap posts store seen0).dataFile).Nodup) := by
  constructor
  · intro fd dg hinj ms mc p st hq hne hfresh
    exact processPost_fanout hinj ms mc p st hq hne hfresh
  · intro fd dg ms mc ap posts store seen0 Htext Hnodup Hbridge
    have hex_nodup : (pairsOf (if ap then store else [])).Nodup := by
      split
      · exact Hnodup
      · exact List.Pairwise.nil
    have hex_bridge : ∀ r ∈ (if ap then store else []), ∀ p, p ∈ posts →
        p.id = r.post_id →
        generate_post_hash dg p.id r.bank_name (postText p) ∈ seen0 := by
      split
      · exact Hbridge
      · intro r hr; simp at hr
    have hinv := @pp_pair_inv fd dg ms mc posts (if ap then store else [])
      seen0 Htext hex_bridge
      posts (runInit ap store seen0) (fun p hp => hp)
      ⟨Finset.Subset.refl seen0, by simp [runInit], by
        simpa [runInit, pairsOf] using hex_nodup⟩
    rw [runPipeline_dataFile]
    split
    · exact Hnodup
    · exact hinv.2.2

/-- C2 witness: a concrete post mentioning two institutions (chase and
wells fargo) fans out to exactly two records. -/
theorem fanout_and_pair_uniqueness_witness :
    ∃ rows : List MLRow,
      (processPost (fun _ => "") (fun s => s) 5 5
        { id := "aa1", title := "Wells Fargo or Chase?", selftext := "",
          score := 10, num_comments := 7, created_utc := 0,
          permalink := "/r/x/aa1" }
        ⟨[], ∅, ∅, 0⟩).new_data = [] ++ rows ∧
      rows.length = 2 ∧
      (∀ r ∈ rows, r.post_id = "aa1") ∧
      rows.map MLRow.bank_name = ["chase", "wells fargo"] := by
  obtain ⟨rows, hnd, hlen, hpid, hbank, -, -⟩ :=
    fanout_and_pair_uniqueness.1 (fun _ => "") (fun s => s)
      (fun a b h => h) 5 5
      { id := "aa1", title := "Wells Fargo or Chase?", selftext := "",
        score := 10, num_comments := 7, created_utc := 0,
        permalink := "/r/x/aa1" }
      ⟨[], ∅, ∅, 0⟩ (by decide) (by decide) (by intro b _; simp)
  refine ⟨rows, hnd, ?_, ?_, ?_⟩
  · rw [hlen]; decide
  · intro r hr; exact hpid r hr
  · rw [hbank]; decide

/-! ## Claim C9 -/

/-- C9: the persistence step is two sequential independent file rewrites
(`save_data` then `save_seen_hashes`) with no rollback.  Evaluating the
code at the failing input — a run producing one new record in which the
record-store write succeeds and the seen-hash write raises — shows the
store file holding the new batch while the seen-hash file keeps the old
(empty) set: the two files are out of step, violating the both-or-neither
requirement (the failure itself is reported, not swallowed). -/
theorem persist_non_atomic :
    (persistNewBatch true false ⟨[], ∅⟩ []
      (processPosts (fun _ => "") (fun s => s) 5 5
        [{ id := "aa1", title := "Wells Fargo is great", selftext := "",
           score := 10, num_comments := 7, created_utc := 0,
           permalink := "/r/x/aa1" }] ⟨[], ∅, ∅, 0⟩).new_data
      (processPosts (fun _ => "") (fun s => s) 5 5
        [{ id := "aa1", title := "Wells Fargo is great", selftext := "",
           score := 10, num_comments := 7, created_utc := 0,
           permalink := "/r/x/aa1" }] ⟨[], ∅, ∅, 0⟩).seen).1.dataFile.length
        = 1 ∧
    (persistNewBatch true false ⟨[], ∅⟩ []
      (processPosts (fun _ => "") (fun s => s) 5 5
        [{ id := "aa1", title := "Wells Fargo is great", selftext := "",
           score := 10, num_comments := 7, created_utc := 0,
           permalink := "/r/x/aa1" }] ⟨[], ∅, ∅, 0⟩).new_data
      (processPosts (fun _ => "") (fun s => s) 5 5
        [{ id := "aa1", title := "Wells Fargo is great", selftext := "",
           score := 10, num_comments := 7, created_utc := 0,
           permalink := "/r/x/aa1" }] ⟨[], ∅, ∅, 0⟩).seen).1.seenFile = ∅ ∧
    (processPosts (fun _ => "") (fun s => s) 5 5
      [{ id := "aa1", title := "Wells Fargo is great", selftext := "",
         score := 10, num_comments := 7, created_utc := 0,
         permalink := "/r/x/aa1" }] ⟨[], ∅, ∅, 0⟩).seen ≠ ∅ ∧
    (persistNewBatch true false ⟨[], ∅⟩ []
      (processPosts (fun _ => "") (fun s => s) 5 5
        [{ id := "aa1", title := "Wells Fargo is great", selftext := "",
           score := 10, num_comments := 7, created_utc := 0,
           permalink := "/r/x/aa1" }] ⟨[], ∅, ∅, 0⟩).new_data
      (processPosts (fun _ => "") (fun s => s) 5 5
        [{ id := "aa1", title := "Wells Fargo is great", selftext := "",
           score := 10, num_comments := 7, created_utc := 0,
           permalink := "/r/x/aa1" }] ⟨[], ∅, ∅, 0⟩).seen).2 = false := by
  refine ⟨by decide, by decide, by decide, by decide⟩

end StealthBanking
